import Mathlib

/-!
Verification of the elastic binary tree (ebtree) 128-bit key operations.

Shallow embedding of `src/ocean/db/ebtree/c/src/eb128tree.c` and
`src/trunk/ocean/db/ebtree/c/src/ebpttree.c`.

Modelling conventions:

* A 128-bit key (`u128`) is a `Nat`; where a claim depends on the numeric
  value of a C expression that overflows, the reduction `% 2^128` is explicit.
* Each user record (`struct eb128_node`) is identified by a natural number
  `id` standing for its address; the record also carries its `key`.  The
  same record may appear in the trie once as a leaf and once as an internal
  node, exactly as in the C code, where an internal node's `key` field is
  the key of the record owning it.
* The trie reachable from `root->b[EB_LEFT]` is an inductive tree: a branch
  is either a leaf (holding a record) or an internal node (holding the
  owning record's id and key, the `bit` field — an `Int`, `-1` marking a
  duplicate sentinel — and the two child branches `b[EB_LEFT]`,
  `b[EB_RGHT]`).  An empty tree (`root->b[EB_LEFT] == NULL`) is `none`.
* Parent back-pointers (`node_p`, `leaf_p`) are exact inverses of the child
  links (spec §3 invariant 4), therefore the climbing loops of
  `eb128_lookup_le` / `eb128_lookup_ge`, which follow parent pointers until
  the first differently-tagged link, are rendered as the equivalent
  propagation of a "take the in-order neighbour of this subtree" result
  through the recursive descent.
* `eb128_lookup` evaluates `y >> node->node.bit` also when
  `node->node.bit` is `-1` (a duplicate sentinel whose key differs from the
  looked-up key).  A shift by a negative amount is undefined behaviour in
  C; the embedding returns `Except.error ()` at exactly that point.
-/

namespace Ebtree

/-- `EB_LEFT` branch index (ebtree: left branch of a branches pair). -/
def EB_LEFT : Nat := 0

/-- `EB_RGHT` branch index (ebtree: right branch of a branches pair). -/
def EB_RGHT : Nat := 1

/-- `EB_NODE_BRANCHES`: number of branches per node (2). -/
def EB_NODE_BRANCHES : Nat := 2

/-- `EB_NODE_BITS`: bits consumed per level (1). -/
def EB_NODE_BITS : Nat := 1

/-- A reference to a user record (`struct eb128_node *`): its address
stands for the `id`, and `key` is the record's key field. -/
structure EbRec where
  id : Nat
  key : Nat
  deriving DecidableEq, Repr

/-- One branch of the trie: either a leaf side of a record, or the node
side of a record (with its `bit` field and two children).  `bit < 0`
(value `-1`) marks a duplicate-subtree sentinel. -/
inductive EbTree where
  | leaf (id : Nat) (key : Nat)
  | node (id : Nat) (key : Nat) (bit : Int) (l : EbTree) (r : EbTree)
  deriving DecidableEq, Repr

namespace EbTree

/-- The records held by the leaves of a branch, in in-order
(left-to-right) sequence. -/
def leaves : EbTree → List EbRec
  | .leaf i k => [⟨i, k⟩]
  | .node _ _ _ l r => leaves l ++ leaves r

/-- The keys stored below a branch, in in-order sequence. -/
def leafKeys (t : EbTree) : List Nat := t.leaves.map EbRec.key

/-- `true` iff the branch, when it is an internal node, has `bit < b`;
leaves impose no constraint (their node side is not linked here). -/
def rootBitLt (t : EbTree) (b : Int) : Bool :=
  match t with
  | .leaf _ _ => true
  | .node _ _ bit _ _ => bit < b

/-- `true` iff every internal node of the branch is a duplicate sentinel
(`bit = -1`), as inside a duplicate subtree. -/
def allDup : EbTree → Bool
  | .leaf _ _ => true
  | .node _ _ bit l r => bit == -1 && allDup l && allDup r

end EbTree

open EbTree

/-- Modelled from the spec: `eb_walk_down(start, side)` (defined in
`ebtree.h`, which is not among the sources) descends from the branch
`start` following the branch `side` at every internal node — including
through duplicate sentinels — until a leaf is reached, and returns the
record owning that leaf (spec §4.1, `first`/`last`). -/
def eb_walk_down (t : EbTree) (side : Nat) : EbRec :=
  match t with
  | .leaf i k => ⟨i, k⟩
  | .node _ _ _ l r =>
      if side == EB_LEFT then eb_walk_down l side else eb_walk_down r side

/-- Fuel-driven base-2 logarithm (equal to `Nat.log2` whenever the fuel
is at least the argument, see `log2fuel_eq`); structural recursion on the
fuel keeps it reducible by the kernel. -/
def log2fuel : Nat → Nat → Nat
  | 0, _ => 0
  | fuel + 1, n => if n ≥ 2 then log2fuel fuel (n / 2) + 1 else 0

/-- Modelled from the spec: `fls128(x)` ("find last set", declared in the
missing `ebtree.h`) returns the 1-based position of the most significant
set bit of `x`, so that for `x ≠ 0` the value `fls128 x - 1` is
`floor_log2 x`, "the most significant differing bit" of spec §4.2 step 5
when applied to `new.key XOR old.key`; `fls128 0 = 0`. -/
def fls128 (x : Nat) : Nat :=
  if x = 0 then 0 else log2fuel x x + 1

/-- Modelled from the spec: `eb_insert_dup(old, new)` (defined in the
missing `ebtree.h`) attaches `new` as a new leaf of the duplicate subtree
rooted at `old`, so that `new` becomes the rightmost leaf of that subtree
and in-order traversal preserves insertion order (spec §4.1); the internal
node contributed by `new` is a duplicate sentinel (`bit = -1`). -/
def eb_insert_dup (old : EbTree) (id key : Nat) : EbTree :=
  .node id key (-1) old (.leaf id key)

/-- `eb128_lookup(root, x)` Find the first occurrence of key `x` below a
non-empty root branch.  Returns `.ok (some rec)` / `.ok none` (found /
`NULL`), or `.error ()` when the C code would evaluate
`y >> node->node.bit` with `node->node.bit = -1` (undefined behaviour:
duplicate sentinel whose key differs from `x`). -/
def eb128_lookupAux : EbTree → Nat → Except Unit (Option EbRec)
  | .leaf i k, x =>
      -- reached a leaf: compare the keys for equality
      if k = x then .ok (some ⟨i, k⟩) else .ok none
  | .node i k bit l r, x =>
      let y := k ^^^ x
      if y = 0 then
        -- either the node holding the key, or a dup tree: walk it down
        -- left to get the first entry
        if bit < 0 then .ok (some (eb_walk_down l EB_LEFT))
        else .ok (some ⟨i, k⟩)
      else
        if bit < 0 then
          -- C computes (y >> -1): undefined behaviour
          .error ()
        else
          if y >>> bit.toNat ≥ EB_NODE_BRANCHES then
            .ok none -- no more common bits
          else
            if (x >>> bit.toNat) &&& 1 = 0 then eb128_lookupAux l x
            else eb128_lookupAux r x

/-- `eb128_lookup(root, x)` on the full root (empty tree returns `NULL`). -/
def eb128_lookup (root : Option EbTree) (x : Nat) : Except Unit (Option EbRec) :=
  match root with
  | none => .ok none
  | some t => eb128_lookupAux t x

/-- Branch selection of `eb128_insert`/`eb128i_insert` as compiled when
`BITS_PER_LONG >= 128`: `side = (newkey >> old_node_bit) & EB_NODE_BRANCH_MASK`. -/
def ebSideSingle (newkey : Nat) (bit : Nat) : Nat :=
  (newkey >>> bit) &&& 1

/-- Branch selection of `eb128_insert`/`eb128i_insert` as compiled when
`BITS_PER_LONG < 128`: `side` is a C `unsigned int` (32 bits), assigned
`side = newkey; side >>= old_node_bit;` and, when `old_node_bit >= 32`,
reassigned `side = newkey >> 32; side >>= old_node_bit & 0x1F;`, then
masked with `EB_NODE_BRANCH_MASK`.  The embedding gives the final value of
`side` (for `old_node_bit >= 32` the first shift's result is discarded). -/
def ebSideHalves (newkey : Nat) (bit : Nat) : Nat :=
  if bit ≥ 32 then
    (((newkey >>> 32) % 2 ^ 32) >>> (bit % 32)) &&& 1
  else
    ((newkey % 2 ^ 32) >>> bit) &&& 1

/-- `eb128_insert(root, new)` on a non-empty root branch.  `uniq` is the
tag of `root->b[EB_RGHT]` (unique-keys flag), `id`/`key` are the new
record.  Branch selection follows the `BITS_PER_LONG >= 128` path
(`side = (newkey >> old_node_bit) & EB_NODE_BRANCH_MASK`); the
`BITS_PER_LONG < 128` path is embedded separately as `ebSideHalves`.
Returns the updated branch and the returned record (the preexisting
record on a refused duplicate, otherwise the new one). -/
def eb128_insertAux (uniq : Bool) (id key : Nat) : EbTree → EbTree × EbRec
  | .leaf oid okey =>
      -- reached a leaf: 3 possibilities (new < old, new > old, equal)
      if key < okey then
        (.node id key (fls128 (key ^^^ okey) - EB_NODE_BITS : Nat)
          (.leaf id key) (.leaf oid okey), ⟨id, key⟩)
      else
        if key = okey ∧ uniq then
          -- refuse to duplicate: the tree is tagged unique
          (.leaf oid okey, ⟨oid, okey⟩)
        else
          if key = okey then
            -- first duplicate: new becomes the dup sentinel, bit = -1
            (.node id key (-1) (.leaf oid okey) (.leaf id key), ⟨id, key⟩)
          else
            (.node id key (fls128 (key ^^^ okey) - EB_NODE_BITS : Nat)
              (.leaf oid okey) (.leaf id key), ⟨id, key⟩)
  | .node oid okey obit l r =>
      if obit < 0 ∨ (key ^^^ okey) >>> obit.toNat ≥ EB_NODE_BRANCHES then
        -- stop going down: no common bits anymore, or a duplicates tree
        if key < okey then
          (.node id key (fls128 (key ^^^ okey) - EB_NODE_BITS : Nat)
            (.leaf id key) (.node oid okey obit l r), ⟨id, key⟩)
        else
          if key > okey then
            (.node id key (fls128 (key ^^^ okey) - EB_NODE_BITS : Nat)
              (.node oid okey obit l r) (.leaf id key), ⟨id, key⟩)
          else
            (eb_insert_dup (.node oid okey obit l r) id key, ⟨id, key⟩)
      else
        -- walk down
        if ebSideSingle key obit.toNat = 0 then
          let res := eb128_insertAux uniq id key l
          (.node oid okey obit res.1 r, res.2)
        else
          let res := eb128_insertAux uniq id key r
          (.node oid okey obit l res.1, res.2)

/-- `eb128_insert(root, new)` on the full root: an empty tree receives the
new record as the leaf below the left branch. -/
def eb128_insert (uniq : Bool) (root : Option EbTree) (id key : Nat) :
    Option EbTree × EbRec :=
  match root with
  | none => (some (.leaf id key), ⟨id, key⟩)
  | some t =>
      let res := eb128_insertAux uniq id key t
      (some res.1, res.2)

/-- `eb128_lookup_le(root, x)` on a non-empty root branch: find the last
occurrence of the highest key which is lower than or equal to `x`.  The
result `none` renders the C climb that follows `node_p`/`leaf_p` links
upward while the tag says `EB_LEFT`: it means "the answer is the in-order
predecessor of this whole subtree", which the caller resolves (a `none`
escaping the root is the C climb running into the tree root: `NULL`). -/
def eb128_lookup_leAux : EbTree → Nat → Option EbRec
  | .leaf i k, x =>
      -- reached a leaf: the whole upper parts were common
      if k ≤ x then some ⟨i, k⟩ else none
  | .node _ k bit l r, x =>
      if bit < 0 then
        -- top of a dup tree: matching value → rightmost node, else prev
        if k ≤ x then some (eb_walk_down r EB_RGHT) else none
      else
        if (x ^^^ k) >>> bit.toNat ≥ EB_NODE_BRANCHES then
          -- no more common bits at all
          if k >>> bit.toNat < x >>> bit.toNat then
            some (eb_walk_down r EB_RGHT)
          else
            none
        else
          if (x >>> bit.toNat) &&& 1 = 0 then
            -- a `none` from the left child climbs through our LEFT tag
            eb128_lookup_leAux l x
          else
            match eb128_lookup_leAux r x with
            | some n => some n
            | none =>
                -- walking up from the right branch stops here: take the
                -- rightmost leaf of the left branch
                some (eb_walk_down l EB_RGHT)

/-- `eb128_lookup_le(root, x)` on the full root. -/
def eb128_lookup_le (root : Option EbTree) (x : Nat) : Option EbRec :=
  match root with
  | none => none
  | some t => eb128_lookup_leAux t x

/-- `eb128_lookup_ge(root, x)` on a non-empty root branch: find the first
occurrence of the lowest key which is greater than or equal to `x`.
`none` means "the answer is the in-order successor of this subtree". -/
def eb128_lookup_geAux : EbTree → Nat → Option EbRec
  | .leaf i k, x =>
      if k ≥ x then some ⟨i, k⟩ else none
  | .node _ k bit l r, x =>
      if bit < 0 then
        -- top of a dup tree: matching value → leftmost node, else next
        if k ≥ x then some (eb_walk_down l EB_LEFT) else none
      else
        if (x ^^^ k) >>> bit.toNat ≥ EB_NODE_BRANCHES then
          if k >>> bit.toNat > x >>> bit.toNat then
            some (eb_walk_down l EB_LEFT)
          else
            none
        else
          if (x >>> bit.toNat) &&& 1 = 0 then
            match eb128_lookup_geAux l x with
            | some n => some n
            | none =>
                -- walking up from the left branch stops at once: take the
                -- leftmost leaf of the right branch
                some (eb_walk_down r EB_LEFT)
          else
            eb128_lookup_geAux r x

/-- `eb128_lookup_ge(root, x)` on the full root. -/
def eb128_lookup_ge (root : Option EbTree) (x : Nat) : Option EbRec :=
  match root with
  | none => none
  | some t => eb128_lookup_geAux t x

/-! ## Signed variants

`eb128i_insert` stores the raw two's-complement bit pattern in `new->key`
(embedded as a `Nat < 2^128`), compares keys with `(s128)` casts, and
derives the branching key as `newkey = new->key ^ (1ULL << 127)`.  The
constant `1ULL << 127` shifts a 64-bit operand by 127, which is undefined
behaviour in C; the embedding takes the value of that constant as a
parameter `c` (any defined reading of a 64-bit expression satisfies
`c < 2^64`). -/

/-- Value of the bit pattern `a` (a `u128`) read as a signed `s128`. -/
def s128 (a : Nat) : Int :=
  if a < 2 ^ 127 then (a : Int) else (a : Int) - 2 ^ 128

/-- The C comparison `(s128)a < (s128)b` on two key bit patterns. -/
def s128lt (a b : Nat) : Bool :=
  s128 a < s128 b

/-- `eb128i_insert(root, new)` on a non-empty root branch; `c` is the
value of the constant `1ULL << 127` (see above), so the branching key is
`newkey = key ^^^ c`.  Comparisons between `new->key` and `old->key` use
`(s128)` casts exactly as the source does; the XOR and `fls128` are on the
raw patterns. -/
def eb128i_insertAux (c : Nat) (uniq : Bool) (id key : Nat) :
    EbTree → EbTree × EbRec
  | .leaf oid okey =>
      if s128lt key okey then
        (.node id key (fls128 (key ^^^ okey) - EB_NODE_BITS : Nat)
          (.leaf id key) (.leaf oid okey), ⟨id, key⟩)
      else
        if key = okey ∧ uniq then
          (.leaf oid okey, ⟨oid, okey⟩)
        else
          if key = okey then
            (.node id key (-1) (.leaf oid okey) (.leaf id key), ⟨id, key⟩)
          else
            (.node id key (fls128 (key ^^^ okey) - EB_NODE_BITS : Nat)
              (.leaf oid okey) (.leaf id key), ⟨id, key⟩)
  | .node oid okey obit l r =>
      if obit < 0 ∨ (key ^^^ okey) >>> obit.toNat ≥ EB_NODE_BRANCHES then
        if s128lt key okey then
          (.node id key (fls128 (key ^^^ okey) - EB_NODE_BITS : Nat)
            (.leaf id key) (.node oid okey obit l r), ⟨id, key⟩)
        else
          if s128lt okey key then
            (.node id key (fls128 (key ^^^ okey) - EB_NODE_BITS : Nat)
              (.node oid okey obit l r) (.leaf id key), ⟨id, key⟩)
          else
            (eb_insert_dup (.node oid okey obit l r) id key, ⟨id, key⟩)
      else
        if ebSideSingle (key ^^^ c) obit.toNat = 0 then
          let res := eb128i_insertAux c uniq id key l
          (.node oid okey obit res.1 r, res.2)
        else
          let res := eb128i_insertAux c uniq id key r
          (.node oid okey obit l res.1, res.2)

/-- `eb128i_insert(root, new)` on the full root. -/
def eb128i_insert (c : Nat) (uniq : Bool) (root : Option EbTree)
    (id key : Nat) : Option EbTree × EbRec :=
  match root with
  | none => (some (.leaf id key), ⟨id, key⟩)
  | some t =>
      let res := eb128i_insertAux c uniq id key t
      (some res.1, res.2)

/-! ## Reachable trees -/

/-- The tree built by a sequence of `eb128_insert` operations on an
initially empty root (`uniq` is the root's unique-keys tag; each pair is
the inserted record's `(id, key)`). -/
def eb128_build (uniq : Bool) (ops : List (Nat × Nat)) : Option EbTree :=
  ops.foldl (fun root op => (eb128_insert uniq root op.1 op.2).1) none

/-- The tree built by a sequence of `eb128i_insert` operations on an
initially empty root (`c` is the value of the constant `1ULL << 127`). -/
def eb128i_build (c : Nat) (uniq : Bool) (ops : List (Nat × Nat)) :
    Option EbTree :=
  ops.foldl (fun root op => (eb128i_insert c uniq root op.1 op.2).1) none

/-- The in-order key sequence of a root. -/
def rootKeys (root : Option EbTree) : List Nat :=
  match root with
  | none => []
  | some t => t.leafKeys

/-- The in-order record sequence of a root. -/
def rootLeaves (root : Option EbTree) : List EbRec :=
  match root with
  | none => []
  | some t => t.leaves

/-! ## Structural invariant

`wfB t` is the well-formedness invariant maintained by insertion (spec §3
"Invariants"): at an ordinary internal node of bit `b`, all leaf keys of
the subtree share the node key's bits above `b`, the left leaves have bit
`b` clear and the right leaves have it set, both children hung as internal
nodes have smaller bit values, and the record owning the node is the first
in-order leaf of the subtree carrying the node's key field;
at a duplicate sentinel, the whole subtree carries one key and only
sentinel internal nodes. -/
def wfB : EbTree → Bool
  | .leaf _ _ => true
  | .node i k bit l r =>
      if bit < 0 then
        bit == -1 && (l.leafKeys ++ r.leafKeys).all (· == k)
          && l.allDup && r.allDup
      else
        let b := bit.toNat
        l.leafKeys.all
            (fun k' => k' >>> (b + 1) == k >>> (b + 1) && (k' >>> b) % 2 == 0)
        && r.leafKeys.all
            (fun k' => k' >>> (b + 1) == k >>> (b + 1) && (k' >>> b) % 2 == 1)
        && l.rootBitLt bit && r.rootBitLt bit
        && ((l.leaves ++ r.leaves).filter (fun n => n.key == k)).head?
              == some ⟨i, k⟩
        && wfB l && wfB r

/-- Well-formedness of a root (an empty tree is well-formed). -/
def wfRoot : Option EbTree → Bool
  | none => true
  | some t => wfB t

/-- The bit-ordering invariant exactly as claimed (spec §3 invariant 2):
every ordinary internal node's `bit` is strictly greater than the `bit`
of each child linked as an internal node, and a duplicate sentinel
(`bit = -1`) has only duplicate sentinels below it (it sits strictly
below every ordinary internal node). -/
def bitsOrdered : EbTree → Bool
  | .leaf _ _ => true
  | .node _ _ bit l r =>
      if bit < 0 then
        bit == -1 && l.allDup && r.allDup
      else
        l.rootBitLt bit && r.rootBitLt bit && bitsOrdered l && bitsOrdered r

/-! ## Arithmetic facts about shifts, XOR and `log2`

The descent logic compares keys through `>>>`, `^^^`, `&&& 1` and
`fls128`; these lemmas relate those operations to the numeric order. -/

theorem shiftRight_xor (a b k : Nat) :
    (a ^^^ b) >>> k = a >>> k ^^^ b >>> k := by
  apply Nat.eq_of_testBit_eq
  intro i
  simp [Nat.testBit_shiftRight, Nat.testBit_xor]

theorem shiftRight_add_one (a k : Nat) : a >>> (k + 1) = a >>> k / 2 := by
  rw [Nat.shiftRight_add a k 1]
  rfl

theorem shiftRight_lt_two_iff (y b : Nat) :
    y >>> b < 2 ↔ y >>> (b + 1) = 0 := by
  rw [shiftRight_add_one]
  generalize y >>> b = u
  omega

theorem lt_of_shiftRight_lt {a b : Nat} (k : Nat)
    (h : a >>> k < b >>> k) : a < b := by
  rw [Nat.shiftRight_eq_div_pow, Nat.shiftRight_eq_div_pow] at h
  exact Nat.lt_of_div_lt_div h

theorem shiftRight_le_of_le {a b : Nat} (k : Nat) (h : a ≤ b) :
    a >>> k ≤ b >>> k := by
  rw [Nat.shiftRight_eq_div_pow, Nat.shiftRight_eq_div_pow]
  exact Nat.div_le_div_right h

theorem lt_iff_shiftRight_lt {a b : Nat} (k : Nat)
    (h : a >>> k ≠ b >>> k) : a < b ↔ a >>> k < b >>> k := by
  constructor
  · intro hab
    exact Nat.lt_of_le_of_ne (shiftRight_le_of_le k (Nat.le_of_lt hab)) h
  · exact lt_of_shiftRight_lt k

theorem shiftRight_lt_of_succ_lt {a b : Nat} (k : Nat)
    (h : a >>> (k + 1) < b >>> (k + 1)) : a >>> k < b >>> k := by
  rw [shiftRight_add_one, shiftRight_add_one] at h
  omega

theorem shiftRight_eq_of_succ {a b : Nat} (k : Nat)
    (h1 : a >>> (k + 1) = b >>> (k + 1))
    (h2 : (a >>> k) % 2 = (b >>> k) % 2) : a >>> k = b >>> k := by
  rw [shiftRight_add_one, shiftRight_add_one] at h1
  omega

theorem lt_of_prefix_eq_bit_lt {a b : Nat} (k : Nat)
    (h1 : a >>> (k + 1) = b >>> (k + 1))
    (h2 : (a >>> k) % 2 = 0) (h3 : (b >>> k) % 2 = 1) : a < b := by
  apply lt_of_shiftRight_lt k
  rw [shiftRight_add_one, shiftRight_add_one] at h1
  omega

theorem xor_shiftRight_eq_zero_iff (a b k : Nat) :
    (a ^^^ b) >>> k = 0 ↔ a >>> k = b >>> k := by
  rw [shiftRight_xor]
  exact Nat.xor_eq_zero

theorem xor_mod_two (a b : Nat) :
    (a ^^^ b) % 2 = 0 ↔ a % 2 = b % 2 := by
  have h := @Nat.xor_mod_two_eq_one a b
  have h2 := Nat.mod_two_eq_zero_or_one (a ^^^ b)
  have h3 := Nat.mod_two_eq_zero_or_one a
  have h4 := Nat.mod_two_eq_zero_or_one b
  constructor
  · intro h0
    rcases h3 with h3 | h3 <;> rcases h4 with h4 | h4 <;> simp_all
  · intro he
    rcases h2 with h2 | h2
    · exact h2
    · rw [h] at h2
      rcases h3 with h3 | h3 <;> simp_all

theorem log2fuel_eq : ∀ (fuel n : Nat), n ≤ fuel →
    log2fuel fuel n = Nat.log2 n := by
  intro fuel
  induction fuel with
  | zero =>
      intro n hn
      have h0 : n = 0 := by omega
      subst h0
      rw [Nat.log2]
      simp [log2fuel]
  | succ fuel ih =>
      intro n hn
      rw [log2fuel, Nat.log2]
      by_cases h2 : n ≥ 2
      · rw [if_pos h2, if_pos h2, ih (n / 2) (by omega)]
      · rw [if_neg h2, if_neg h2]

/-- For `y ≠ 0` with `p = Nat.log2 y`: the bits of `y` above `p` are zero
and bit `p` is set, i.e. `p` is the most significant set bit. -/
theorem log2_shiftRight_self (y : Nat) (hy : y ≠ 0) :
    y >>> Nat.log2 y = 1 ∧ y >>> (Nat.log2 y + 1) = 0 := by
  have h1 : 2 ^ Nat.log2 y ≤ y := by
    rw [Nat.log2_eq_log_two]
    exact Nat.pow_log_le_self 2 hy
  have h2 : y < 2 ^ (Nat.log2 y + 1) := by
    rw [Nat.log2_eq_log_two]
    exact Nat.lt_pow_succ_log_self (by norm_num) y
  constructor
  · rw [Nat.shiftRight_eq_div_pow]
    apply Nat.div_eq_of_lt_le
    · simpa using h1
    · rw [Nat.pow_succ] at h2
      omega
  · rw [Nat.shiftRight_eq_div_pow]
    exact Nat.div_eq_of_lt h2

/-- `fls128 (a ^^^ b) - EB_NODE_BITS` is the most significant bit position
at which distinct `a` and `b` differ: above it they agree, at it they
differ. -/
theorem fls128_xor_spec {a b : Nat} (h : a ≠ b) :
    a >>> (fls128 (a ^^^ b) - EB_NODE_BITS + 1)
        = b >>> (fls128 (a ^^^ b) - EB_NODE_BITS + 1) ∧
      (a >>> (fls128 (a ^^^ b) - EB_NODE_BITS)) % 2
        ≠ (b >>> (fls128 (a ^^^ b) - EB_NODE_BITS)) % 2 := by
  have hy : a ^^^ b ≠ 0 := by
    simpa [Nat.xor_eq_zero] using h
  have hspec := log2_shiftRight_self (a ^^^ b) hy
  have hfls : fls128 (a ^^^ b) - EB_NODE_BITS = Nat.log2 (a ^^^ b) := by
    rw [fls128, if_neg hy, log2fuel_eq _ _ (Nat.le_refl _), EB_NODE_BITS]
    omega
  rw [hfls]
  constructor
  · rw [← xor_shiftRight_eq_zero_iff]
    exact hspec.2
  · intro hmod
    rw [← xor_mod_two, ← shiftRight_xor] at hmod
    rw [hspec.1] at hmod
    simp at hmod

/-! ## Structural lemmas about leaves and walks -/

@[simp] theorem leaves_leaf (i k : Nat) :
    (EbTree.leaf i k).leaves = [⟨i, k⟩] := rfl

@[simp] theorem leaves_node (i k : Nat) (bit : Int) (l r : EbTree) :
    (EbTree.node i k bit l r).leaves = l.leaves ++ r.leaves := rfl

@[simp] theorem leafKeys_leaf (i k : Nat) :
    (EbTree.leaf i k).leafKeys = [k] := rfl

@[simp] theorem leafKeys_node (i k : Nat) (bit : Int) (l r : EbTree) :
    (EbTree.node i k bit l r).leafKeys = l.leafKeys ++ r.leafKeys := by
  simp [EbTree.leafKeys, EbTree.leaves]

theorem leaves_ne_nil (t : EbTree) : t.leaves ≠ [] := by
  induction t with
  | leaf i k => simp
  | node i k bit l r ihl ihr => simp [ihl]

theorem leafKeys_ne_nil (t : EbTree) : t.leafKeys ≠ [] := by
  simp [EbTree.leafKeys, leaves_ne_nil]

theorem key_mem_leafKeys {t : EbTree} {n : EbRec} (h : n ∈ t.leaves) :
    n.key ∈ t.leafKeys := by
  simp only [EbTree.leafKeys, List.mem_map]
  exact ⟨n, h, rfl⟩

/-- `eb_walk_down` to the left reaches the first in-order leaf. -/
theorem eb_walk_down_left (t : EbTree) :
    some (eb_walk_down t EB_LEFT) = t.leaves.head? := by
  induction t with
  | leaf i k => rfl
  | node i k bit l r ihl ihr =>
      rw [eb_walk_down, if_pos (by rfl)]
      rw [leaves_node, List.head?_append, ← ihl]
      rfl

/-- `eb_walk_down` to the right reaches the last in-order leaf. -/
theorem eb_walk_down_right (t : EbTree) :
    some (eb_walk_down t EB_RGHT) = t.leaves.getLast? := by
  induction t with
  | leaf i k => rfl
  | node i k bit l r ihl ihr =>
      rw [eb_walk_down, if_neg (by decide)]
      rw [leaves_node, List.getLast?_append, ← ihr]
      rfl

/-! ## Unfolding the invariant -/

/-- The invariant at a duplicate sentinel, in propositional form. -/
theorem wfB_node_neg {i k : Nat} {bit : Int} {l r : EbTree} (h : bit < 0) :
    wfB (.node i k bit l r) = true ↔
      bit = -1 ∧ (∀ k' ∈ l.leafKeys ++ r.leafKeys, k' = k) ∧
        l.allDup = true ∧ r.allDup = true := by
  rw [wfB]
  simp only [if_pos h, Bool.and_eq_true, List.all_eq_true, beq_iff_eq,
    and_assoc]

/-- The invariant at an ordinary internal node, in propositional form. -/
theorem wfB_node_pos {i k : Nat} {bit : Int} {l r : EbTree}
    (h : ¬bit < 0) :
    wfB (.node i k bit l r) = true ↔
      (∀ k' ∈ l.leafKeys, k' >>> (bit.toNat + 1) = k >>> (bit.toNat + 1) ∧
        (k' >>> bit.toNat) % 2 = 0) ∧
      (∀ k' ∈ r.leafKeys, k' >>> (bit.toNat + 1) = k >>> (bit.toNat + 1) ∧
        (k' >>> bit.toNat) % 2 = 1) ∧
      l.rootBitLt bit = true ∧ r.rootBitLt bit = true ∧
      ((l.leaves ++ r.leaves).filter (fun n => n.key == k)).head?
          = some ⟨i, k⟩ ∧
      wfB l = true ∧ wfB r = true := by
  rw [wfB]
  simp only [if_neg h, Bool.and_eq_true, List.all_eq_true, beq_iff_eq,
    decide_eq_true_eq, and_assoc]

/-- Inside a well-formed ordinary node, the node's own key is a leaf key
of the subtree (the record owning the node is linked as a leaf below). -/
theorem wf_key_mem {i k : Nat} {bit : Int} {l r : EbTree}
    (h : ¬bit < 0) (hwf : wfB (.node i k bit l r) = true) :
    k ∈ l.leafKeys ++ r.leafKeys := by
  obtain ⟨-, -, -, -, h5, -, -⟩ := (wfB_node_pos h).1 hwf
  have hmem : (⟨i, k⟩ : EbRec) ∈ (l.leaves ++ r.leaves).filter
      (fun n => n.key == k) := by
    obtain ⟨ys, hys⟩ := List.head?_eq_some_iff.1 h5
    rw [hys]
    exact List.mem_cons_self _ _
  have := List.mem_of_mem_filter hmem
  rw [← leaves_node i k bit l r] at this
  rw [← leafKeys_node i k bit l r]
  exact key_mem_leafKeys this

/-- All leaf keys of a well-formed subtree agree with the node key above
the node's bit (the subtrees share the node's prefix). -/
theorem wf_agree {i k : Nat} {bit : Int} {l r : EbTree}
    (h : ¬bit < 0) (hwf : wfB (.node i k bit l r) = true) :
    ∀ k' ∈ l.leafKeys ++ r.leafKeys,
      k' >>> (bit.toNat + 1) = k >>> (bit.toNat + 1) := by
  obtain ⟨h1, h2, -, -, -, -, -⟩ := (wfB_node_pos h).1 hwf
  intro k' hk'
  rcases List.mem_append.1 hk' with hk' | hk'
  · exact (h1 k' hk').1
  · exact (h2 k' hk').1

/-! ## Sortedness of the in-order key sequence -/

theorem pairwise_le_of_all_eq {k : Nat} {L : List Nat}
    (h : ∀ a ∈ L, a = k) : L.Pairwise (· ≤ ·) := by
  induction L with
  | nil => simp
  | cons a L ih =>
      rw [List.pairwise_cons]
      refine ⟨fun b hb => ?_, ih fun b hb => h b (List.mem_cons_of_mem a hb)⟩
      rw [h a (List.mem_cons_self a L), h b (List.mem_cons_of_mem a hb)]

/-- At a well-formed ordinary node, every left leaf key is strictly less
than every right leaf key. -/
theorem wf_cross_lt {i k : Nat} {bit : Int} {l r : EbTree}
    (h : ¬bit < 0) (hwf : wfB (.node i k bit l r) = true) :
    ∀ a ∈ l.leafKeys, ∀ b ∈ r.leafKeys, a < b := by
  obtain ⟨h1, h2, -, -, -, -, -⟩ := (wfB_node_pos h).1 hwf
  intro a ha b hb
  obtain ⟨ha1, ha2⟩ := h1 a ha
  obtain ⟨hb1, hb2⟩ := h2 b hb
  exact lt_of_prefix_eq_bit_lt bit.toNat (ha1.trans hb1.symm) ha2 hb2

/-- The in-order key sequence of a well-formed tree is non-decreasing
(spec §8 invariant 1: traversal yields keys in non-decreasing order). -/
theorem wf_sorted (t : EbTree) (hwf : wfB t = true) :
    t.leafKeys.Pairwise (· ≤ ·) := by
  induction t with
  | leaf i k => simp
  | node i k bit l r ihl ihr =>
      rw [leafKeys_node, List.pairwise_append]
      by_cases hb : bit < 0
      · obtain ⟨-, hall, -, -⟩ := (wfB_node_neg hb).1 hwf
        refine ⟨pairwise_le_of_all_eq fun a ha => hall a (by simp [ha]),
          pairwise_le_of_all_eq fun a ha => hall a (by simp [ha]), ?_⟩
        intro a ha b hb'
        rw [hall a (by simp [ha]), hall b (by simp [hb'])]
      · obtain ⟨-, -, -, -, -, hwl, hwr⟩ := (wfB_node_pos hb).1 hwf
        exact ⟨ihl hwl, ihr hwr,
          fun a ha b hb' => Nat.le_of_lt (wf_cross_lt hb hwf a ha b hb')⟩

/-! ## Helpers about heads and tails of filtered leaf lists -/

theorem or_head?_of_ne_nil {α : Type} {l : List α} (o : Option α)
    (h : l ≠ []) : l.head?.or o = l.head? := by
  cases l with
  | nil => exact absurd rfl h
  | cons a as => rfl

theorem or_getLast?_of_ne_nil {α : Type} {l : List α} (o : Option α)
    (h : l ≠ []) : l.getLast?.or o = l.getLast? := by
  have hs : l.getLast?.isSome := List.getLast?_isSome.2 h
  cases hl : l.getLast? with
  | none => rw [hl] at hs; simp at hs
  | some a => rfl

theorem mem_leafKeys_iff {t : EbTree} {x : Nat} :
    x ∈ t.leafKeys ↔ ∃ n ∈ t.leaves, n.key = x := by
  simp [EbTree.leafKeys, List.mem_map]

theorem filter_key_ne_nil {t : EbTree} {x : Nat} (hx : x ∈ t.leafKeys) :
    t.leaves.filter (fun n => n.key == x) ≠ [] := by
  obtain ⟨n, hn, hkey⟩ := mem_leafKeys_iff.1 hx
  exact List.ne_nil_of_mem (List.mem_filter.2 ⟨hn, by simp [hkey]⟩)

theorem filter_key_eq_nil {t : EbTree} {x : Nat} (hx : x ∉ t.leafKeys) :
    t.leaves.filter (fun n => n.key == x) = [] := by
  rw [List.filter_eq_nil_iff]
  intro n hn
  simp only [beq_iff_eq]
  intro hkey
  exact hx (mem_leafKeys_iff.2 ⟨n, hn, hkey⟩)

theorem filter_key_eq_self {t : EbTree} {x : Nat}
    (hall : ∀ k' ∈ t.leafKeys, k' = x) :
    t.leaves.filter (fun n => n.key == x) = t.leaves := by
  rw [List.filter_eq_self]
  intro n hn
  simp [hall n.key (key_mem_leafKeys hn)]

/-! ## Correctness of `eb128_lookup` -/

/-- On a well-formed tree holding `x`, `eb128_lookup` returns the first
in-order leaf whose key is `x` (for duplicates: the leftmost leaf of the
duplicate subtree, i.e. the first-inserted one). -/
theorem eb128_lookupAux_mem (t : EbTree) (x : Nat) (hwf : wfB t = true)
    (hx : x ∈ t.leafKeys) :
    eb128_lookupAux t x
      = .ok ((t.leaves.filter (fun n => n.key == x)).head?) := by
  induction t with
  | leaf i k =>
      have hk : k = x := by
        have : x = k := by simpa using hx
        exact this.symm
      subst hk
      simp [eb128_lookupAux]
  | node i k bit l r ihl ihr =>
      rw [eb128_lookupAux]
      by_cases hy : k ^^^ x = 0
      · have hk : k = x := Nat.xor_eq_zero.1 hy
        rw [if_pos hy]
        by_cases hbit : bit < 0
        · rw [if_pos hbit]
          obtain ⟨-, hall, -, -⟩ := (wfB_node_neg hbit).1 hwf
          have hself : (EbTree.node i k bit l r).leaves.filter
              (fun n => n.key == x) = l.leaves ++ r.leaves := by
            rw [leaves_node]
            refine @filter_key_eq_self (EbTree.node i k bit l r) _ ?_
            rw [leafKeys_node]
            intro k' hk'
            exact (hall k' hk').trans hk
          rw [hself, List.head?_append,
            or_head?_of_ne_nil _ (leaves_ne_nil l), eb_walk_down_left]
        · rw [if_neg hbit]
          obtain ⟨-, -, -, -, h5, -, -⟩ := (wfB_node_pos hbit).1 hwf
          rw [leaves_node, ← hk, h5]
      · rw [if_neg hy]
        by_cases hbit : bit < 0
        · exfalso
          obtain ⟨-, hall, -, -⟩ := (wfB_node_neg hbit).1 hwf
          rw [leafKeys_node] at hx
          exact hy (by rw [hall x hx]; simp)
        · rw [if_neg hbit]
          have hpre : x >>> (bit.toNat + 1) = k >>> (bit.toNat + 1) :=
            wf_agree hbit hwf x (by rwa [leafKeys_node] at hx)
          have hlt : ¬(k ^^^ x) >>> bit.toNat ≥ EB_NODE_BRANCHES := by
            rw [EB_NODE_BRANCHES, not_le, shiftRight_lt_two_iff,
              xor_shiftRight_eq_zero_iff]
            exact hpre.symm
          rw [if_neg hlt]
          obtain ⟨h1, h2, -, -, -, hwl, hwr⟩ := (wfB_node_pos hbit).1 hwf
          rw [leafKeys_node, List.mem_append] at hx
          rw [Nat.and_one_is_mod]
          rcases hx with hx | hx
          · have hpar : (x >>> bit.toNat) % 2 = 0 := (h1 x hx).2
            rw [if_pos hpar, ihl hwl hx, leaves_node, List.filter_append,
              List.head?_append,
              or_head?_of_ne_nil _ (filter_key_ne_nil hx)]
          · have hpar : (x >>> bit.toNat) % 2 = 1 := (h2 x hx).2
            rw [if_neg (by omega), ihr hwr hx, leaves_node,
              List.filter_append, List.head?_append]
            have hxl : x ∉ l.leafKeys := by
              intro hxl
              have := (h1 x hxl).2
              omega
            rw [filter_key_eq_nil hxl]
            simp

/-- On a well-formed tree not holding `x`, `eb128_lookup` either returns
`NULL` or runs into the undefined negative shift at a duplicate sentinel
whose key differs from `x`. -/
theorem eb128_lookupAux_not_mem (t : EbTree) (x : Nat)
    (hwf : wfB t = true) (hx : x ∉ t.leafKeys) :
    eb128_lookupAux t x = .ok none ∨ eb128_lookupAux t x = .error () := by
  induction t with
  | leaf i k =>
      have hk : k ≠ x := by
        intro h; exact hx (by simp [h])
      left
      simp [eb128_lookupAux, hk]
  | node i k bit l r ihl ihr =>
      rw [eb128_lookupAux]
      have hk : k ≠ x := by
        intro h
        subst h
        by_cases hbit : bit < 0
        · obtain ⟨-, hall, -, -⟩ := (wfB_node_neg hbit).1 hwf
          apply hx
          rw [leafKeys_node]
          obtain ⟨a, ha⟩ := List.exists_mem_of_ne_nil _ (leafKeys_ne_nil l)
          have hak : a = k := hall a (List.mem_append_left _ ha)
          exact List.mem_append_left _ (hak ▸ ha)
        · exact hx (by rw [leafKeys_node]; exact wf_key_mem hbit hwf)
      have hy : ¬(k ^^^ x = 0) := fun h => hk (Nat.xor_eq_zero.1 h)
      rw [if_neg hy]
      by_cases hbit : bit < 0
      · right
        rw [if_pos hbit]
      · rw [if_neg hbit]
        by_cases hge : (k ^^^ x) >>> bit.toNat ≥ EB_NODE_BRANCHES
        · left
          rw [if_pos hge]
        · rw [if_neg hge]
          obtain ⟨-, -, -, -, -, hwl, hwr⟩ := (wfB_node_pos hbit).1 hwf
          rw [leafKeys_node, List.mem_append] at hx
          push_neg at hx
          by_cases hpar : (x >>> bit.toNat) &&& 1 = 0
          · rw [if_pos hpar]
            exact ihl hwl hx.1
          · rw [if_neg hpar]
            exact ihr hwr hx.2

/-! ## Correctness of `eb128_lookup_le` and `eb128_lookup_ge` -/

theorem filter_le_eq_self {t : EbTree} {x : Nat}
    (h : ∀ k' ∈ t.leafKeys, k' ≤ x) :
    t.leaves.filter (fun n => decide (n.key ≤ x)) = t.leaves := by
  rw [List.filter_eq_self]
  intro n hn
  simp [h n.key (key_mem_leafKeys hn)]

theorem filter_le_eq_nil {t : EbTree} {x : Nat}
    (h : ∀ k' ∈ t.leafKeys, x < k') :
    t.leaves.filter (fun n => decide (n.key ≤ x)) = [] := by
  rw [List.filter_eq_nil_iff]
  intro n hn
  simp only [decide_eq_true_eq, not_le]
  exact h n.key (key_mem_leafKeys hn)

theorem filter_ge_eq_self {t : EbTree} {x : Nat}
    (h : ∀ k' ∈ t.leafKeys, x ≤ k') :
    t.leaves.filter (fun n => decide (x ≤ n.key)) = t.leaves := by
  rw [List.filter_eq_self]
  intro n hn
  simp [h n.key (key_mem_leafKeys hn)]

theorem filter_ge_eq_nil {t : EbTree} {x : Nat}
    (h : ∀ k' ∈ t.leafKeys, k' < x) :
    t.leaves.filter (fun n => decide (x ≤ n.key)) = [] := by
  rw [List.filter_eq_nil_iff]
  intro n hn
  simp only [decide_eq_true_eq, not_le]
  exact h n.key (key_mem_leafKeys hn)

theorem shiftRight_succ_le_of_lt {k x : Nat} (b : Nat)
    (h : k >>> b < x >>> b) : k >>> (b + 1) ≤ x >>> (b + 1) := by
  rw [shiftRight_add_one, shiftRight_add_one]
  exact Nat.div_le_div_right (Nat.le_of_lt h)

/-- In the no-common-bits case with the subtree below `x`, every leaf key
of the subtree is smaller than `x`. -/
theorem diverge_keys_lt {k' k x b : Nat}
    (hpre : k' >>> (b + 1) = k >>> (b + 1))
    (hdiff : x >>> (b + 1) ≠ k >>> (b + 1))
    (hlt : k >>> b < x >>> b) : k' < x := by
  have h1 : k >>> (b + 1) < x >>> (b + 1) :=
    Nat.lt_of_le_of_ne (shiftRight_succ_le_of_lt b hlt)
      (fun h => hdiff h.symm)
  exact lt_of_shiftRight_lt (b + 1) (by rw [hpre]; exact h1)

/-- In the no-common-bits case with the subtree above `x`, every leaf key
of the subtree is greater than `x`. -/
theorem diverge_keys_gt {k' k x b : Nat}
    (hpre : k' >>> (b + 1) = k >>> (b + 1))
    (hdiff : x >>> (b + 1) ≠ k >>> (b + 1))
    (hge : ¬k >>> b < x >>> b) : x < k' := by
  have h0 : x >>> b ≤ k >>> b := Nat.le_of_not_lt hge
  have h1 : x >>> (b + 1) ≤ k >>> (b + 1) := by
    rw [shiftRight_add_one, shiftRight_add_one]
    exact Nat.div_le_div_right h0
  have h2 : x >>> (b + 1) < k' >>> (b + 1) := by
    rw [hpre]
    exact Nat.lt_of_le_of_ne h1 hdiff
  exact lt_of_shiftRight_lt (b + 1) h2

/-- On a well-formed tree, `eb128_lookup_le` returns the last in-order
leaf whose key is at most `x` (and `NULL` when there is none). -/
theorem eb128_lookup_leAux_eq (t : EbTree) (x : Nat)
    (hwf : wfB t = true) :
    eb128_lookup_leAux t x
      = (t.leaves.filter (fun n => decide (n.key ≤ x))).getLast? := by
  induction t with
  | leaf i k =>
      by_cases hk : k ≤ x
      · simp [eb128_lookup_leAux, hk]
      · simp [eb128_lookup_leAux, hk]
  | node i k bit l r ihl ihr =>
      rw [eb128_lookup_leAux]
      by_cases hbit : bit < 0
      · rw [if_pos hbit]
        obtain ⟨-, hall, -, -⟩ := (wfB_node_neg hbit).1 hwf
        by_cases hk : k ≤ x
        · rw [if_pos hk, leaves_node, List.filter_append]
          rw [@filter_le_eq_self l x
              (fun k' hk' => (hall k' (List.mem_append_left _ hk')) ▸ hk),
            @filter_le_eq_self r x
              (fun k' hk' => (hall k' (List.mem_append_right _ hk')) ▸ hk)]
          rw [List.getLast?_append,
            or_getLast?_of_ne_nil _ (leaves_ne_nil r), eb_walk_down_right]
        · rw [if_neg hk, leaves_node, List.filter_append]
          rw [@filter_le_eq_nil l x (fun k' hk' =>
              (hall k' (List.mem_append_left _ hk')) ▸ Nat.lt_of_not_le hk),
            @filter_le_eq_nil r x (fun k' hk' =>
              (hall k' (List.mem_append_right _ hk')) ▸ Nat.lt_of_not_le hk)]
          rfl
      · rw [if_neg hbit]
        obtain ⟨h1, h2, -, -, -, hwl, hwr⟩ := (wfB_node_pos hbit).1 hwf
        by_cases hdiv : (x ^^^ k) >>> bit.toNat ≥ EB_NODE_BRANCHES
        · rw [if_pos hdiv]
          have hdiff : x >>> (bit.toNat + 1) ≠ k >>> (bit.toNat + 1) := by
            rw [EB_NODE_BRANCHES, ge_iff_le, ← not_lt,
              shiftRight_lt_two_iff, xor_shiftRight_eq_zero_iff] at hdiv
            exact hdiv
          by_cases hside : k >>> bit.toNat < x >>> bit.toNat
          · rw [if_pos hside, leaves_node, List.filter_append]
            have hl : ∀ k' ∈ l.leafKeys, k' ≤ x := fun k' hk' =>
              Nat.le_of_lt (diverge_keys_lt (h1 k' hk').1 hdiff hside)
            have hr : ∀ k' ∈ r.leafKeys, k' ≤ x := fun k' hk' =>
              Nat.le_of_lt (diverge_keys_lt (h2 k' hk').1 hdiff hside)
            rw [filter_le_eq_self hl, filter_le_eq_self hr,
              List.getLast?_append,
              or_getLast?_of_ne_nil _ (leaves_ne_nil r), eb_walk_down_right]
          · rw [if_neg hside, leaves_node, List.filter_append]
            have hl : ∀ k' ∈ l.leafKeys, x < k' := fun k' hk' =>
              diverge_keys_gt (h1 k' hk').1 hdiff hside
            have hr : ∀ k' ∈ r.leafKeys, x < k' := fun k' hk' =>
              diverge_keys_gt (h2 k' hk').1 hdiff hside
            rw [filter_le_eq_nil hl, filter_le_eq_nil hr]
            rfl
        · rw [if_neg hdiv]
          have hpre : x >>> (bit.toNat + 1) = k >>> (bit.toNat + 1) := by
            rw [EB_NODE_BRANCHES, ge_iff_le, ← not_lt, not_not,
              shiftRight_lt_two_iff, xor_shiftRight_eq_zero_iff] at hdiv
            exact hdiv
          rw [Nat.and_one_is_mod]
          by_cases hpar : (x >>> bit.toNat) % 2 = 0
          · rw [if_pos hpar, leaves_node, List.filter_append]
            have hrgt : ∀ k' ∈ r.leafKeys, x < k' := fun k' hk' =>
              lt_of_prefix_eq_bit_lt bit.toNat
                (hpre.trans (h2 k' hk').1.symm) hpar (h2 k' hk').2
            rw [filter_le_eq_nil hrgt, List.getLast?_append]
            rw [ihl hwl]
            rfl
          · rw [if_neg hpar, leaves_node, List.filter_append]
            have hllt : ∀ k' ∈ l.leafKeys, k' < x := fun k' hk' =>
              lt_of_prefix_eq_bit_lt bit.toNat
                ((h1 k' hk').1.trans hpre.symm) (h1 k' hk').2
                (by rcases Nat.mod_two_eq_zero_or_one (x >>> bit.toNat)
                      with h | h
                    · exact absurd h hpar
                    · exact h)
            rw [ihr hwr, List.getLast?_append]
            rcases hfr : (r.leaves.filter
                (fun n => decide (n.key ≤ x))).getLast? with _ | n
            · rw [hfr, Option.none_or,
                @filter_le_eq_self l x
                  (fun k' hk' => Nat.le_of_lt (hllt k' hk'))]
              exact eb_walk_down_right l
            · rw [hfr, Option.or_some]

/-- On a well-formed tree, `eb128_lookup_ge` returns the first in-order
leaf whose key is at least `x` (and `NULL` when there is none). -/
theorem eb128_lookup_geAux_eq (t : EbTree) (x : Nat)
    (hwf : wfB t = true) :
    eb128_lookup_geAux t x
      = (t.leaves.filter (fun n => decide (x ≤ n.key))).head? := by
  induction t with
  | leaf i k =>
      by_cases hk : k ≥ x
      · simp [eb128_lookup_geAux, hk]
      · simp [eb128_lookup_geAux, hk]
  | node i k bit l r ihl ihr =>
      rw [eb128_lookup_geAux]
      by_cases hbit : bit < 0
      · rw [if_pos hbit]
        obtain ⟨-, hall, -, -⟩ := (wfB_node_neg hbit).1 hwf
        by_cases hk : k ≥ x
        · rw [if_pos hk, leaves_node, List.filter_append]
          rw [@filter_ge_eq_self l x
              (fun k' hk' => (hall k' (List.mem_append_left _ hk')) ▸ hk),
            @filter_ge_eq_self r x
              (fun k' hk' => (hall k' (List.mem_append_right _ hk')) ▸ hk)]
          rw [List.head?_append,
            or_head?_of_ne_nil _ (leaves_ne_nil l), eb_walk_down_left]
        · rw [if_neg hk, leaves_node, List.filter_append]
          rw [@filter_ge_eq_nil l x (fun k' hk' =>
              (hall k' (List.mem_append_left _ hk')) ▸ Nat.lt_of_not_le hk),
            @filter_ge_eq_nil r x (fun k' hk' =>
              (hall k' (List.mem_append_right _ hk')) ▸ Nat.lt_of_not_le hk)]
          rfl
      · rw [if_neg hbit]
        obtain ⟨h1, h2, -, -, -, hwl, hwr⟩ := (wfB_node_pos hbit).1 hwf
        by_cases hdiv : (x ^^^ k) >>> bit.toNat ≥ EB_NODE_BRANCHES
        · rw [if_pos hdiv]
          have hdiff : x >>> (bit.toNat + 1) ≠ k >>> (bit.toNat + 1) := by
            rw [EB_NODE_BRANCHES, ge_iff_le, ← not_lt,
              shiftRight_lt_two_iff, xor_shiftRight_eq_zero_iff] at hdiv
            exact hdiv
          by_cases hside : k >>> bit.toNat > x >>> bit.toNat
          · rw [if_pos hside, leaves_node, List.filter_append]
            have hl : ∀ k' ∈ l.leafKeys, x ≤ k' := fun k' hk' =>
              Nat.le_of_lt (diverge_keys_gt (h1 k' hk').1 hdiff
                (Nat.not_lt_of_lt hside))
            have hr : ∀ k' ∈ r.leafKeys, x ≤ k' := fun k' hk' =>
              Nat.le_of_lt (diverge_keys_gt (h2 k' hk').1 hdiff
                (Nat.not_lt_of_lt hside))
            rw [filter_ge_eq_self hl, filter_ge_eq_self hr,
              List.head?_append,
              or_head?_of_ne_nil _ (leaves_ne_nil l), eb_walk_down_left]
          · rw [if_neg hside, leaves_node, List.filter_append]
            have hsl : k >>> bit.toNat < x >>> bit.toNat := by
              have hne : x >>> bit.toNat ≠ k >>> bit.toNat := by
                intro h
                apply hdiff
                rw [shiftRight_add_one, shiftRight_add_one, h]
              omega
            have hl : ∀ k' ∈ l.leafKeys, k' < x := fun k' hk' =>
              diverge_keys_lt (h1 k' hk').1 hdiff hsl
            have hr : ∀ k' ∈ r.leafKeys, k' < x := fun k' hk' =>
              diverge_keys_lt (h2 k' hk').1 hdiff hsl
            rw [filter_ge_eq_nil hl, filter_ge_eq_nil hr]
            rfl
        · rw [if_neg hdiv]
          have hpre : x >>> (bit.toNat + 1) = k >>> (bit.toNat + 1) := by
            rw [EB_NODE_BRANCHES, ge_iff_le, ← not_lt, not_not,
              shiftRight_lt_two_iff, xor_shiftRight_eq_zero_iff] at hdiv
            exact hdiv
          rw [Nat.and_one_is_mod]
          by_cases hpar : (x >>> bit.toNat) % 2 = 0
          · rw [if_pos hpar, leaves_node, List.filter_append]
            have hrge : ∀ k' ∈ r.leafKeys, x ≤ k' := fun k' hk' =>
              Nat.le_of_lt (lt_of_prefix_eq_bit_lt bit.toNat
                (hpre.trans (h2 k' hk').1.symm) hpar (h2 k' hk').2)
            rw [ihl hwl, List.head?_append]
            rcases hfl : (l.leaves.filter
                (fun n => decide (x ≤ n.key))).head? with _ | n
            · rw [hfl, Option.none_or, filter_ge_eq_self hrge]
              exact eb_walk_down_left r
            · rw [hfl, Option.or_some]
          · rw [if_neg hpar, leaves_node, List.filter_append]
            have hllt : ∀ k' ∈ l.leafKeys, k' < x := fun k' hk' =>
              lt_of_prefix_eq_bit_lt bit.toNat
                ((h1 k' hk').1.trans hpre.symm) (h1 k' hk').2
                (by rcases Nat.mod_two_eq_zero_or_one (x >>> bit.toNat)
                      with h | h
                    · exact absurd h hpar
                    · exact h)
            rw [filter_ge_eq_nil hllt, ihr hwr, List.head?_append]
            rfl

/-! ## List splitting helpers for the insert proofs -/

theorem takeWhile_append_of_all {α : Type} {p : α → Bool} {l1 l2 : List α}
    (h : ∀ a ∈ l1, p a = true) :
    (l1 ++ l2).takeWhile p = l1 ++ l2.takeWhile p := by
  induction l1 with
  | nil => simp
  | cons a l1 ih =>
      rw [List.cons_append, List.takeWhile_cons,
        if_pos (h a (List.mem_cons_self a l1)),
        ih fun b hb => h b (List.mem_cons_of_mem a hb)]
      rfl

theorem dropWhile_append_of_all {α : Type} {p : α → Bool} {l1 l2 : List α}
    (h : ∀ a ∈ l1, p a = true) :
    (l1 ++ l2).dropWhile p = l2.dropWhile p := by
  induction l1 with
  | nil => simp
  | cons a l1 ih =>
      rw [List.cons_append, List.dropWhile_cons,
        if_pos (h a (List.mem_cons_self a l1)),
        ih fun b hb => h b (List.mem_cons_of_mem a hb)]

theorem takeWhile_append_of_none {α : Type} {p : α → Bool} {l1 l2 : List α}
    (h : ∀ a ∈ l2, p a = false) :
    (l1 ++ l2).takeWhile p = l1.takeWhile p := by
  induction l1 with
  | nil =>
      rw [List.nil_append, List.takeWhile_nil]
      cases l2 with
      | nil => rfl
      | cons a l2 =>
          rw [List.takeWhile_cons, if_neg (by
            rw [h a (List.mem_cons_self a l2)]; simp)]
  | cons a l1 ih =>
      rw [List.cons_append, List.takeWhile_cons, List.takeWhile_cons]
      by_cases hp : p a = true
      · rw [if_pos hp, if_pos hp, ih]
      · rw [if_neg hp, if_neg hp]

theorem dropWhile_append_of_none {α : Type} {p : α → Bool} {l1 l2 : List α}
    (h : ∀ a ∈ l2, p a = false) :
    (l1 ++ l2).dropWhile p = l1.dropWhile p ++ l2 := by
  induction l1 with
  | nil =>
      rw [List.nil_append, List.dropWhile_nil, List.nil_append]
      cases l2 with
      | nil => rfl
      | cons a l2 =>
          rw [List.dropWhile_cons, if_neg (by
            rw [h a (List.mem_cons_self a l2)]; simp)]
  | cons a l1 ih =>
      rw [List.cons_append, List.dropWhile_cons, List.dropWhile_cons]
      by_cases hp : p a = true
      · rw [if_pos hp, if_pos hp, ih]
      · rw [if_neg hp, if_neg hp, List.cons_append]

/-- In a key-sorted record list, everything remaining after dropping the
prefix of keys `≤ x` has key strictly above `x`. -/
theorem dropWhile_le_keys_gt {x : Nat} {L : List EbRec}
    (hs : (L.map EbRec.key).Pairwise (· ≤ ·)) :
    ∀ n ∈ L.dropWhile (fun n => decide (n.key ≤ x)), x < n.key := by
  induction L with
  | nil => simp
  | cons a L ih =>
      rw [List.map_cons, List.pairwise_cons] at hs
      rw [List.dropWhile_cons]
      by_cases hp : a.key ≤ x
      · rw [if_pos (by simp [hp])]
        exact ih hs.2
      · rw [if_neg (by simp [hp])]
        intro n hn
        rcases List.mem_cons.1 hn with rfl | hn
        · omega
        · have := hs.1 n.key (List.mem_map.2 ⟨n, hn, rfl⟩)
          omega

/-! ## Bit facts supporting insertion -/

theorem shiftRight_eq_of_le_shift {a b p q : Nat} (hpq : p ≤ q)
    (h : a >>> p = b >>> p) : a >>> q = b >>> q := by
  have hq : q = p + (q - p) := by omega
  rw [hq, Nat.shiftRight_add, Nat.shiftRight_add, h]

theorem log2_lt_of_shiftRight_eq_zero {y pb : Nat} (hy : y ≠ 0)
    (h : y >>> pb = 0) : Nat.log2 y < pb := by
  by_contra hc
  push_neg at hc
  have h1 := (log2_shiftRight_self y hy).1
  have : y >>> Nat.log2 y = 0 := by
    have := @shiftRight_eq_of_le_shift y 0 _ _ hc
      (by simpa using h)
    simpa using this
  omega

theorem succ_le_log2_of_shiftRight {y b : Nat} (hy : y ≠ 0)
    (h : 2 ≤ y >>> b) : b + 1 ≤ Nat.log2 y := by
  by_contra hc
  push_neg at hc
  have h2 := (log2_shiftRight_self y hy).2
  have hle : Nat.log2 y + 1 ≤ b + 1 := hc
  have : y >>> (b + 1) = 0 := by
    have := @shiftRight_eq_of_le_shift y 0 _ _ hle
      (by simpa using h2)
    simpa using this
  rw [shiftRight_add_one] at this
  omega

theorem parity_of_lt {a b p : Nat} (hab : a < b)
    (hpre : a >>> (p + 1) = b >>> (p + 1))
    (hne : (a >>> p) % 2 ≠ (b >>> p) % 2) :
    (a >>> p) % 2 = 0 ∧ (b >>> p) % 2 = 1 := by
  have hle : a >>> p ≤ b >>> p := shiftRight_le_of_le p (Nat.le_of_lt hab)
  rw [shiftRight_add_one, shiftRight_add_one] at hpre
  generalize a >>> p = u at *
  generalize b >>> p = v at *
  omega

/-- The bit position assigned to a spliced node: for distinct keys,
`fls128 (a ^^^ b) - EB_NODE_BITS = Nat.log2 (a ^^^ b)`. -/
theorem fls128_sub_eq_log2 {a b : Nat} (h : a ≠ b) :
    fls128 (a ^^^ b) - EB_NODE_BITS = Nat.log2 (a ^^^ b) := by
  have hy : a ^^^ b ≠ 0 := by simpa [Nat.xor_eq_zero] using h
  rw [fls128, if_neg hy, log2fuel_eq _ _ (Nat.le_refl _), EB_NODE_BITS]
  omega

/-! ## Behaviour of `eb128_insert` -/

/-- In the stop case of the insert descent (duplicate subtree ahead, or
no more common bits), every leaf key of the subtree agrees with the
subtree's node key at and above `log2 (x ^^^ okey)`. -/
theorem stop_keys_shiftRight {x oid okey : Nat} {obit : Int}
    {l r : EbTree} (hwf : wfB (.node oid okey obit l r) = true)
    (hstop : obit < 0 ∨ (x ^^^ okey) >>> obit.toNat ≥ EB_NODE_BRANCHES)
    (hne : x ≠ okey) :
    ∀ k' ∈ (EbTree.node oid okey obit l r).leafKeys,
      k' >>> Nat.log2 (x ^^^ okey) = okey >>> Nat.log2 (x ^^^ okey) := by
  intro k' hk'
  by_cases hb : obit < 0
  · obtain ⟨-, hall, -, -⟩ := (wfB_node_neg hb).1 hwf
    rw [hall k' (by rwa [leafKeys_node] at hk')]
  · have hdiv := hstop.resolve_left hb
    have hy : x ^^^ okey ≠ 0 := by simpa [Nat.xor_eq_zero] using hne
    have hlog : obit.toNat + 1 ≤ Nat.log2 (x ^^^ okey) :=
      succ_le_log2_of_shiftRight hy hdiv
    exact shiftRight_eq_of_le_shift hlog
      (wf_agree hb hwf k' (by rwa [leafKeys_node] at hk'))

/-- In the stop case with `x < okey`, every leaf key of the subtree is
greater than `x` (the new node goes to the left of the whole subtree). -/
theorem stop_keys_gt {x oid okey : Nat} {obit : Int} {l r : EbTree}
    (hwf : wfB (.node oid okey obit l r) = true)
    (hstop : obit < 0 ∨ (x ^^^ okey) >>> obit.toNat ≥ EB_NODE_BRANCHES)
    (hlt : x < okey) :
    ∀ k' ∈ (EbTree.node oid okey obit l r).leafKeys, x < k' := by
  intro k' hk'
  have hne : x ≠ okey := Nat.ne_of_lt hlt
  have heq := stop_keys_shiftRight hwf hstop hne k' hk'
  set p := Nat.log2 (x ^^^ okey) with hp
  have hy : x ^^^ okey ≠ 0 := by simpa [Nat.xor_eq_zero] using hne
  have h1 : (x ^^^ okey) >>> p = 1 := (log2_shiftRight_self _ hy).1
  have hxo : x >>> p ≠ okey >>> p := by
    intro h
    rw [shiftRight_xor, h] at h1
    simp at h1
  have hxp : x >>> p < okey >>> p := (lt_iff_shiftRight_lt p hxo).1 hlt
  exact lt_of_shiftRight_lt p (heq ▸ hxp)

/-- In the stop case with `okey < x`, every leaf key of the subtree is
less than `x` (the new node goes to the right of the whole subtree). -/
theorem stop_keys_lt {x oid okey : Nat} {obit : Int} {l r : EbTree}
    (hwf : wfB (.node oid okey obit l r) = true)
    (hstop : obit < 0 ∨ (x ^^^ okey) >>> obit.toNat ≥ EB_NODE_BRANCHES)
    (hgt : okey < x) :
    ∀ k' ∈ (EbTree.node oid okey obit l r).leafKeys, k' < x := by
  intro k' hk'
  have hne : x ≠ okey := (Nat.ne_of_lt hgt).symm
  have heq := stop_keys_shiftRight hwf hstop hne k' hk'
  set p := Nat.log2 (x ^^^ okey) with hp
  have hy : x ^^^ okey ≠ 0 := by simpa [Nat.xor_eq_zero] using hne
  have h1 : (x ^^^ okey) >>> p = 1 := (log2_shiftRight_self _ hy).1
  have hxo : okey >>> p ≠ x >>> p := by
    intro h
    rw [shiftRight_xor, h] at h1
    simp at h1
  have hxp : okey >>> p < x >>> p := (lt_iff_shiftRight_lt p hxo).1 hgt
  exact lt_of_shiftRight_lt p (heq ▸ hxp)

/-- In the descend case, the keys of the child on the chosen side are the
only ones that can equal or bracket `x` at the node's bit: leaf keys of
the non-chosen right child are greater than `x` when `x`'s bit is 0. -/
theorem descend_right_keys_gt {x okey : Nat} {obit : Int} {r : EbTree}
    (h2 : ∀ k' ∈ r.leafKeys, k' >>> (obit.toNat + 1)
        = okey >>> (obit.toNat + 1) ∧ (k' >>> obit.toNat) % 2 = 1)
    (hpre : x >>> (obit.toNat + 1) = okey >>> (obit.toNat + 1))
    (hpar : (x >>> obit.toNat) % 2 = 0) :
    ∀ k' ∈ r.leafKeys, x < k' := fun k' hk' =>
  lt_of_prefix_eq_bit_lt obit.toNat
    (hpre.trans (h2 k' hk').1.symm) hpar (h2 k' hk').2

/-- Mirror of `descend_right_keys_gt`: leaf keys of the left child are
smaller than `x` when `x`'s bit is 1. -/
theorem descend_left_keys_lt {x okey : Nat} {obit : Int} {l : EbTree}
    (h1 : ∀ k' ∈ l.leafKeys, k' >>> (obit.toNat + 1)
        = okey >>> (obit.toNat + 1) ∧ (k' >>> obit.toNat) % 2 = 0)
    (hpre : x >>> (obit.toNat + 1) = okey >>> (obit.toNat + 1))
    (hpar : (x >>> obit.toNat) % 2 = 1) :
    ∀ k' ∈ l.leafKeys, k' < x := fun k' hk' =>
  lt_of_prefix_eq_bit_lt obit.toNat
    ((h1 k' hk').1.trans hpre.symm) (h1 k' hk').2 hpar

/-- `eb128_insert` on a tree whose unique tag does not refuse the key
returns the inserted record itself. -/
theorem eb128_insertAux_ret (uniq : Bool) (id x : Nat) (t : EbTree)
    (huniq : uniq = false ∨ x ∉ t.leafKeys) :
    (eb128_insertAux uniq id x t).2 = ⟨id, x⟩ := by
  induction t with
  | leaf oid okey =>
      rw [eb128_insertAux]
      split_ifs with h1 h2 h3
      · rfl
      · rcases huniq with h | h
        · rw [h] at h2
          simp at h2
        · exact absurd (by simp [h2.1]) h
      · rfl
      · rfl
  | node oid okey obit l r ihl ihr =>
      rw [eb128_insertAux]
      split_ifs with h1 h2 h3 h4
      · rfl
      · rfl
      · rfl
      · exact ihl (huniq.imp (fun h => h) fun h hx =>
          h (by rw [leafKeys_node]; exact List.mem_append_left _ hx))
      · exact ihr (huniq.imp (fun h => h) fun h hx =>
          h (by rw [leafKeys_node]; exact List.mem_append_right _ hx))

/-- Leaves after an insertion that is not refused: the new record lands
immediately after all leaves with keys `≤ x` and before the rest, i.e.
after the last duplicate of `x` and between its neighbours in key
order. -/
theorem eb128_insertAux_leaves (uniq : Bool) (id x : Nat) (t : EbTree)
    (hwf : wfB t = true) (huniq : uniq = false ∨ x ∉ t.leafKeys) :
    ((eb128_insertAux uniq id x t).1).leaves
      = t.leaves.takeWhile (fun n => decide (n.key ≤ x))
        ++ ⟨id, x⟩ :: t.leaves.dropWhile (fun n => decide (n.key ≤ x)) := by
  induction t with
  | leaf oid okey =>
      rw [eb128_insertAux]
      split_ifs with h1 h2 h3
      · have hnotle : ¬okey ≤ x := by omega
        simp [List.takeWhile_cons, List.dropWhile_cons, hnotle]
      · rcases huniq with h | h
        · rw [h] at h2
          simp at h2
        · exact absurd (by simp [h2.1]) h
      · have hle : okey ≤ x := Nat.le_of_eq h3.symm
        simp [List.takeWhile_cons, List.dropWhile_cons, hle]
      · have hle : okey ≤ x := by omega
        simp [List.takeWhile_cons, List.dropWhile_cons, hle]
  | node oid okey obit l r ihl ihr =>
      rw [eb128_insertAux]
      split_ifs with h1 h2 h3 h4
      · -- stop, new on the left: all subtree keys are above x
        have hgt := stop_keys_gt hwf h1 h2
        rw [leaves_node, leaves_leaf]
        have htw : (EbTree.node oid okey obit l r).leaves.takeWhile
            (fun n => decide (n.key ≤ x)) = [] := by
          cases hlv : (EbTree.node oid okey obit l r).leaves with
          | nil => rfl
          | cons a as =>
              rw [List.takeWhile_cons, if_neg]
              simp only [decide_eq_true_eq, not_le]
              exact hgt a.key (key_mem_leafKeys (hlv ▸ List.mem_cons_self a as))
        have hdw : (EbTree.node oid okey obit l r).leaves.dropWhile
            (fun n => decide (n.key ≤ x))
            = (EbTree.node oid okey obit l r).leaves := by
          cases hlv : (EbTree.node oid okey obit l r).leaves with
          | nil => rfl
          | cons a as =>
              rw [List.dropWhile_cons, if_neg]
              simp only [decide_eq_true_eq, not_le]
              exact hgt a.key (key_mem_leafKeys (hlv ▸ List.mem_cons_self a as))
        rw [htw, hdw, leaves_node, List.nil_append, List.singleton_append]
      · -- stop, new on the right: all subtree keys are below x
        have hlt := stop_keys_lt hwf h1 h3
        rw [leaves_node, leaves_leaf]
        have hall : ∀ n ∈ (EbTree.node oid okey obit l r).leaves,
            (fun n : EbRec => decide (n.key ≤ x)) n = true := fun n hn => by
          simp only [decide_eq_true_eq]
          exact Nat.le_of_lt (hlt n.key (key_mem_leafKeys hn))
        rw [List.takeWhile_eq_self_iff.2 hall, List.dropWhile_eq_nil_iff.2
          (fun n hn => by simp [Nat.le_of_lt (hlt n.key (key_mem_leafKeys hn))])]
      · -- stop with an equal key: duplicate subtree, append to the right
        have hx : x = okey := by omega
        have hb : obit < 0 := by
          rcases h1 with h | h
          · exact h
          · exfalso
            rw [hx] at h
            simp [EB_NODE_BRANCHES] at h
        obtain ⟨-, hall, -, -⟩ := (wfB_node_neg hb).1 hwf
        rw [eb_insert_dup, leaves_node, leaves_leaf]
        have hallle : ∀ n ∈ (EbTree.node oid okey obit l r).leaves,
            (fun n : EbRec => decide (n.key ≤ x)) n = true := fun n hn => by
          have := hall n.key (by
            have := key_mem_leafKeys hn
            rwa [leafKeys_node] at this)
          simp [this, hx]
        rw [List.takeWhile_eq_self_iff.2 hallle,
          List.dropWhile_eq_nil_iff.2 (fun n hn => by
            have := hall n.key (by
              have := key_mem_leafKeys hn
              rwa [leafKeys_node] at this)
            simp [this, hx])]
      · -- walk down left: the right keys all exceed x
        have hb : ¬obit < 0 := by
          intro hb
          exact h1 (Or.inl hb)
        have hdiv : ¬(x ^^^ okey) >>> obit.toNat ≥ EB_NODE_BRANCHES := by
          intro hd
          exact h1 (Or.inr hd)
        obtain ⟨hc1, hc2, -, -, -, hwl, hwr⟩ := (wfB_node_pos hb).1 hwf
        have hpre : x >>> (obit.toNat + 1) = okey >>> (obit.toNat + 1) := by
          rw [EB_NODE_BRANCHES, ge_iff_le, ← not_lt, not_not,
            shiftRight_lt_two_iff, xor_shiftRight_eq_zero_iff] at hdiv
          exact hdiv
        have hpar : (x >>> obit.toNat) % 2 = 0 := by
          rw [ebSideSingle, Nat.and_one_is_mod] at h4
          exact h4
        have hrgt := descend_right_keys_gt hc2 hpre hpar
        have hrnone : ∀ n ∈ r.leaves,
            (fun n : EbRec => decide (n.key ≤ x)) n = false := fun n hn => by
          simp only [decide_eq_false_iff_not, not_le]
          exact hrgt n.key (key_mem_leafKeys hn)
        rw [leaves_node, leaves_node,
          ihl hwl (huniq.imp (fun h => h) fun h hx =>
            h (by rw [leafKeys_node]; exact List.mem_append_left _ hx)),
          takeWhile_append_of_none hrnone, dropWhile_append_of_none hrnone]
        simp
      · -- walk down right: the left keys are all below x
        have hb : ¬obit < 0 := by
          intro hb
          exact h1 (Or.inl hb)
        have hdiv : ¬(x ^^^ okey) >>> obit.toNat ≥ EB_NODE_BRANCHES := by
          intro hd
          exact h1 (Or.inr hd)
        obtain ⟨hc1, hc2, -, -, -, hwl, hwr⟩ := (wfB_node_pos hb).1 hwf
        have hpre : x >>> (obit.toNat + 1) = okey >>> (obit.toNat + 1) := by
          rw [EB_NODE_BRANCHES, ge_iff_le, ← not_lt, not_not,
            shiftRight_lt_two_iff, xor_shiftRight_eq_zero_iff] at hdiv
          exact hdiv
        have hpar : (x >>> obit.toNat) % 2 = 1 := by
          rw [ebSideSingle, Nat.and_one_is_mod] at h4
          omega
        have hllt := descend_left_keys_lt hc1 hpre hpar
        have hlall : ∀ n ∈ l.leaves,
            (fun n : EbRec => decide (n.key ≤ x)) n = true := fun n hn => by
          simp only [decide_eq_true_eq]
          exact Nat.le_of_lt (hllt n.key (key_mem_leafKeys hn))
        rw [leaves_node, leaves_node,
          ihr hwr (huniq.imp (fun h => h) fun h hx =>
            h (by rw [leafKeys_node]; exact List.mem_append_right _ hx)),
          takeWhile_append_of_all hlall, dropWhile_append_of_all hlall]
        simp

@[simp] theorem rootBitLt_leaf (i k : Nat) (b : Int) :
    (EbTree.leaf i k).rootBitLt b = true := rfl

theorem rootBitLt_node_iff {i k : Nat} {bit b : Int} {l r : EbTree} :
    (EbTree.node i k bit l r).rootBitLt b = true ↔ bit < b := by
  simp [EbTree.rootBitLt]

/-- The root bit of a spliced-in node stays strictly below every bit
position `pb` at which the inserted key agrees with the whole subtree
(in particular below the parent node's bit, spec §4.2 step 5: "NOTE that
bit(new) is always < bit(root)"). -/
theorem eb128_insertAux_rootBitLt (uniq : Bool) (id x : Nat) (t : EbTree)
    (hwf : wfB t = true) (pb : Nat)
    (hpb : ∀ k' ∈ t.leafKeys, k' >>> pb = x >>> pb) :
    EbTree.rootBitLt (eb128_insertAux uniq id x t).1 (pb : Int) = true := by
  induction t with
  | leaf oid okey =>
      rw [eb128_insertAux]
      have hok : okey >>> pb = x >>> pb := hpb okey (by simp)
      split_ifs with h1 h2 h3
      · rw [rootBitLt_node_iff]
        have hne : x ≠ okey := by omega
        rw [fls128_sub_eq_log2 hne]
        have : Nat.log2 (x ^^^ okey) < pb :=
          log2_lt_of_shiftRight_eq_zero (by simpa [Nat.xor_eq_zero] using hne)
            (by rw [shiftRight_xor, hok]; simp)
        exact_mod_cast this
      · simp
      · rw [rootBitLt_node_iff]
        have : (0 : Int) ≤ (pb : Int) := by positivity
        omega
      · rw [rootBitLt_node_iff]
        have hne : x ≠ okey := by omega
        rw [fls128_sub_eq_log2 hne]
        have : Nat.log2 (x ^^^ okey) < pb :=
          log2_lt_of_shiftRight_eq_zero (by simpa [Nat.xor_eq_zero] using hne)
            (by rw [shiftRight_xor, hok]; simp)
        exact_mod_cast this
  | node oid okey obit l r ihl ihr =>
      rw [eb128_insertAux]
      have hok : okey >>> pb = x >>> pb := by
        apply hpb
        by_cases hb : obit < 0
        · obtain ⟨-, hall, -, -⟩ := (wfB_node_neg hb).1 hwf
          obtain ⟨a, ha⟩ := List.exists_mem_of_ne_nil _ (leafKeys_ne_nil l)
          have := hall a (List.mem_append_left _ ha)
          rw [leafKeys_node]
          exact List.mem_append_left _ (this ▸ ha)
        · rw [leafKeys_node]
          exact wf_key_mem hb hwf
      split_ifs with h1 h2 h3 h4
      · rw [rootBitLt_node_iff]
        have hne : x ≠ okey := by omega
        rw [fls128_sub_eq_log2 hne]
        have : Nat.log2 (x ^^^ okey) < pb :=
          log2_lt_of_shiftRight_eq_zero (by simpa [Nat.xor_eq_zero] using hne)
            (by rw [shiftRight_xor, hok]; simp)
        exact_mod_cast this
      · rw [rootBitLt_node_iff]
        have hne : x ≠ okey := by omega
        rw [fls128_sub_eq_log2 hne]
        have : Nat.log2 (x ^^^ okey) < pb :=
          log2_lt_of_shiftRight_eq_zero (by simpa [Nat.xor_eq_zero] using hne)
            (by rw [shiftRight_xor, hok]; simp)
        exact_mod_cast this
      · rw [eb_insert_dup, rootBitLt_node_iff]
        have : (0 : Int) ≤ (pb : Int) := by positivity
        omega
      all_goals {
        rw [rootBitLt_node_iff]
        have hb : ¬obit < 0 := fun hb => h1 (Or.inl hb)
        obtain ⟨hc1, hc2, -, -, -, -, -⟩ := (wfB_node_pos hb).1 hwf
        obtain ⟨k0, hk0⟩ := List.exists_mem_of_ne_nil _ (leafKeys_ne_nil l)
        obtain ⟨k1, hk1⟩ := List.exists_mem_of_ne_nil _ (leafKeys_ne_nil r)
        have h01 : k0 >>> pb = k1 >>> pb := by
          rw [hpb k0 (by rw [leafKeys_node]; exact List.mem_append_left _ hk0),
            hpb k1 (by rw [leafKeys_node]; exact List.mem_append_right _ hk1)]
        by_contra hc
        push_neg at hc
        have hble : pb ≤ obit.toNat := by omega
        have := shiftRight_eq_of_le_shift hble h01
        have hp0 := (hc1 k0 hk0).2
        have hp1 := (hc2 k1 hk1).2
        omega
      }

/-- Any key of the tree after insertion is the inserted one or an old
one. -/
theorem eb128_insertAux_keys_mem (uniq : Bool) (id x : Nat) (t : EbTree)
    (hwf : wfB t = true) (huniq : uniq = false ∨ x ∉ t.leafKeys) :
    ∀ k' ∈ ((eb128_insertAux uniq id x t).1).leafKeys,
      k' = x ∨ k' ∈ t.leafKeys := by
  intro k' hk'
  rw [EbTree.leafKeys, eb128_insertAux_leaves uniq id x t hwf huniq,
    List.map_append, List.map_cons] at hk'
  rcases List.mem_append.1 hk' with h | h
  · obtain ⟨n, hn, rfl⟩ := List.mem_map.1 h
    exact Or.inr (key_mem_leafKeys (List.takeWhile_subset _ hn))
  · rcases List.mem_cons.1 h with h | h
    · exact Or.inl h
    · obtain ⟨n, hn, rfl⟩ := List.mem_map.1 h
      exact Or.inr (key_mem_leafKeys (List.dropWhile_subset _ hn))

/-- Inserting a key different from `k` does not change the filtered
sequence of `k`-leaves. -/
theorem filter_insert_ne {x k nid : Nat} (hne : x ≠ k) (L : List EbRec) :
    ((L.takeWhile (fun n => decide (n.key ≤ x))
        ++ ⟨nid, x⟩ :: L.dropWhile (fun n => decide (n.key ≤ x))).filter
          (fun n => n.key == k))
      = L.filter (fun n => n.key == k) := by
  rw [List.filter_append, List.filter_cons]
  rw [if_neg (by simpa using hne)]
  rw [← List.filter_append, List.takeWhile_append_dropWhile]

/-- Inserting a duplicate of `k` into a key-sorted record list appends
its record at the end of the filtered sequence of `k`-leaves. -/
theorem filter_insert_eq {x nid : Nat} (L : List EbRec)
    (hs : (L.map EbRec.key).Pairwise (· ≤ ·)) :
    ((L.takeWhile (fun n => decide (n.key ≤ x))
        ++ ⟨nid, x⟩ :: L.dropWhile (fun n => decide (n.key ≤ x))).filter
          (fun n => n.key == x))
      = L.filter (fun n => n.key == x) ++ [⟨nid, x⟩] := by
  have hdw : (L.dropWhile (fun n => decide (n.key ≤ x))).filter
      (fun n => n.key == x) = [] := by
    rw [List.filter_eq_nil_iff]
    intro n hn
    have := dropWhile_le_keys_gt hs n hn
    simp only [beq_iff_eq]
    omega
  conv_rhs => rw [← @List.takeWhile_append_dropWhile EbRec
    (fun n : EbRec => decide (n.key ≤ x)) L]
  rw [List.filter_append, List.filter_cons, if_pos (by simp),
    List.filter_append, hdw, List.append_nil]

theorem int_toNat_cast (n : Nat) : ((n : Int)).toNat = n := rfl

theorem int_cast_not_neg (n : Nat) : ¬((n : Int) < 0) :=
  not_lt.2 (Int.natCast_nonneg n)

/-- Insertion preserves the structural invariant. -/
theorem eb128_insertAux_wf (uniq : Bool) (id x : Nat) (t : EbTree)
    (hwf : wfB t = true) (huniq : uniq = false ∨ x ∉ t.leafKeys) :
    wfB (eb128_insertAux uniq id x t).1 = true := by
  induction t with
  | leaf oid okey =>
      rw [eb128_insertAux]
      split_ifs with h1 h2 h3
      · -- new leaf to the left of the old one
        have hne : x ≠ okey := by omega
        have hspec := fls128_xor_spec hne
        set p := fls128 (x ^^^ okey) - EB_NODE_BITS with hp
        have hpar := parity_of_lt h1 hspec.1 (fun h => hspec.2 h)
        refine (wfB_node_pos (int_cast_not_neg p)).2
          ⟨?_, ?_, rfl, rfl, ?_, rfl, rfl⟩
        · simp only [int_toNat_cast, leafKeys_leaf, List.mem_singleton]
          rintro k' rfl
          exact ⟨rfl, hpar.1⟩
        · simp only [int_toNat_cast, leafKeys_leaf, List.mem_singleton]
          rintro k' rfl
          exact ⟨hspec.1.symm, hpar.2⟩
        · rw [leaves_leaf, leaves_leaf, List.singleton_append,
            List.filter_cons, if_pos (by simp)]
          simp
      · -- refused duplicate on a unique tree: the old leaf is returned
        simp [wfB]
      · -- first duplicate: sentinel above the two equal leaves
        have hx : x = okey := by omega
        subst hx
        refine (wfB_node_neg (by omega)).2 ⟨rfl, ?_, rfl, rfl⟩
        intro k' hk'
        simpa using hk'
      · -- new leaf to the right of the old one
        have hne : x ≠ okey := by omega
        have hgt : okey < x := by omega
        have hspec := fls128_xor_spec hne
        set p := fls128 (x ^^^ okey) - EB_NODE_BITS with hp
        have hpar := parity_of_lt hgt hspec.1.symm (fun h => hspec.2 h.symm)
        refine (wfB_node_pos (int_cast_not_neg p)).2
          ⟨?_, ?_, rfl, rfl, ?_, rfl, rfl⟩
        · simp only [int_toNat_cast, leafKeys_leaf, List.mem_singleton]
          rintro k' rfl
          exact ⟨hspec.1.symm, hpar.1⟩
        · simp only [int_toNat_cast, leafKeys_leaf, List.mem_singleton]
          rintro k' rfl
          exact ⟨rfl, hpar.2⟩
        · rw [leaves_leaf, leaves_leaf, List.singleton_append,
            List.filter_cons, if_neg (by simp only [beq_iff_eq]; omega)]
          simp
  | node oid okey obit l r ihl ihr =>
      rw [eb128_insertAux]
      split_ifs with h1 h2 h3 h4
      · -- stop, new leaf on the left of the whole subtree
        have hne : x ≠ okey := by omega
        have hspec := fls128_xor_spec hne
        set p := fls128 (x ^^^ okey) - EB_NODE_BITS with hp
        have hpar := parity_of_lt h2 hspec.1 (fun h => hspec.2 h)
        have hplog : p = Nat.log2 (x ^^^ okey) := fls128_sub_eq_log2 hne
        refine (wfB_node_pos (int_cast_not_neg p)).2
          ⟨?_, ?_, rfl, ?_, ?_, rfl, hwf⟩
        · simp only [int_toNat_cast, leafKeys_leaf, List.mem_singleton]
          rintro k' rfl
          exact ⟨rfl, hpar.1⟩
        · simp only [int_toNat_cast]
          intro k' hk'
          have hsk : k' >>> p = okey >>> p := by
            rw [hplog]
            exact stop_keys_shiftRight hwf h1 hne k' hk'
          constructor
          · rw [shiftRight_add_one, shiftRight_add_one, hsk,
              ← shiftRight_add_one, ← shiftRight_add_one]
            exact hspec.1.symm
          · rw [hsk]
            exact hpar.2
        · rw [rootBitLt_node_iff]
          by_cases hbneg : obit < 0
          · have hpge : (0 : Int) ≤ (p : Int) := Int.natCast_nonneg p
            omega
          · have hdiv := h1.resolve_left hbneg
            have hle : obit.toNat + 1 ≤ p := by
              rw [hplog]
              exact succ_le_log2_of_shiftRight
                (by simpa [Nat.xor_eq_zero] using hne) hdiv
            have hcast : obit = (obit.toNat : Int) :=
              (Int.toNat_of_nonneg (by omega)).symm
            rw [hcast]
            exact_mod_cast by omega
        · rw [leaves_leaf, List.singleton_append, List.filter_cons,
            if_pos (by simp)]
          simp
      · -- stop, new leaf on the right of the whole subtree
        have hne : x ≠ okey := by omega
        have hgt : okey < x := by omega
        have hspec := fls128_xor_spec hne
        set p := fls128 (x ^^^ okey) - EB_NODE_BITS with hp
        have hpar := parity_of_lt hgt hspec.1.symm (fun h => hspec.2 h.symm)
        have hplog : p = Nat.log2 (x ^^^ okey) := fls128_sub_eq_log2 hne
        refine (wfB_node_pos (int_cast_not_neg p)).2
          ⟨?_, ?_, ?_, rfl, ?_, hwf, rfl⟩
        · simp only [int_toNat_cast]
          intro k' hk'
          have hsk : k' >>> p = okey >>> p := by
            rw [hplog]
            exact stop_keys_shiftRight hwf h1 hne k' hk'
          constructor
          · rw [shiftRight_add_one, shiftRight_add_one, hsk,
              ← shiftRight_add_one, ← shiftRight_add_one]
            exact hspec.1.symm
          · rw [hsk]
            exact hpar.1
        · simp only [int_toNat_cast, leafKeys_leaf, List.mem_singleton]
          rintro k' rfl
          exact ⟨rfl, hpar.2⟩
        · rw [rootBitLt_node_iff]
          by_cases hbneg : obit < 0
          · have hpge : (0 : Int) ≤ (p : Int) := Int.natCast_nonneg p
            omega
          · have hdiv := h1.resolve_left hbneg
            have hle : obit.toNat + 1 ≤ p := by
              rw [hplog]
              exact succ_le_log2_of_shiftRight
                (by simpa [Nat.xor_eq_zero] using hne) hdiv
            have hcast : obit = (obit.toNat : Int) :=
              (Int.toNat_of_nonneg (by omega)).symm
            rw [hcast]
            exact_mod_cast by omega
        · have hxnot : (EbTree.node oid okey obit l r).leaves.filter
              (fun n => n.key == x) = [] := by
            rw [List.filter_eq_nil_iff]
            intro n hn
            simp only [beq_iff_eq]
            have := stop_keys_lt hwf h1 hgt n.key (key_mem_leafKeys hn)
            omega
          rw [List.filter_append, hxnot, List.nil_append, leaves_leaf,
            List.filter_cons, if_pos (by simp)]
          simp
      · -- equal key: the duplicate subtree gains a rightmost leaf
        have hx : x = okey := by omega
        have hb : obit < 0 := by
          rcases h1 with h | h
          · exact h
          · rw [hx] at h
            simp [EB_NODE_BRANCHES] at h
        obtain ⟨hbit1, hall, hdl, hdr⟩ := (wfB_node_neg hb).1 hwf
        rw [eb_insert_dup]
        refine (wfB_node_neg (by omega)).2 ⟨rfl, ?_, ?_, rfl⟩
        · intro k' hk'
          rcases List.mem_append.1 hk' with h | h
          · rw [leafKeys_node] at h
            rw [hall k' h, hx]
          · simpa using h
        · simp only [EbTree.allDup, Bool.and_eq_true]
          exact ⟨⟨by simp [hbit1], hdl⟩, hdr⟩
      · -- walk down to the left child
        have hb : ¬obit < 0 := fun hb => h1 (Or.inl hb)
        have hdiv : ¬(x ^^^ okey) >>> obit.toNat ≥ EB_NODE_BRANCHES :=
          fun hd => h1 (Or.inr hd)
        obtain ⟨hc1, hc2, hc3, hc4, hc5, hwl, hwr⟩ :=
          (wfB_node_pos hb).1 hwf
        have hpre : x >>> (obit.toNat + 1) = okey >>> (obit.toNat + 1) := by
          rw [EB_NODE_BRANCHES, ge_iff_le, ← not_lt, not_not,
            shiftRight_lt_two_iff, xor_shiftRight_eq_zero_iff] at hdiv
          exact hdiv
        have hpar : (x >>> obit.toNat) % 2 = 0 := by
          rw [ebSideSingle, Nat.and_one_is_mod] at h4
          exact h4
        have huniql : uniq = false ∨ x ∉ l.leafKeys :=
          huniq.imp (fun h => h) fun h hx =>
            h (by rw [leafKeys_node]; exact List.mem_append_left _ hx)
        refine (wfB_node_pos hb).2
          ⟨?_, hc2, ?_, hc4, ?_, ihl hwl huniql, hwr⟩
        · intro k' hk'
          rcases eb128_insertAux_keys_mem uniq id x l hwl huniql k' hk'
            with rfl | hm
          · exact ⟨hpre, hpar⟩
          · exact hc1 k' hm
        · have hagree : ∀ k' ∈ l.leafKeys,
              k' >>> obit.toNat = x >>> obit.toNat := fun k' hk' =>
            shiftRight_eq_of_succ obit.toNat
              ((hc1 k' hk').1.trans hpre.symm)
              (by rw [(hc1 k' hk').2, hpar])
          have := eb128_insertAux_rootBitLt uniq id x l hwl obit.toNat hagree
          rwa [Int.toNat_of_nonneg (by omega)] at this
        · rw [eb128_insertAux_leaves uniq id x l hwl huniql,
            List.filter_append]
          by_cases hxk : x = okey
          · subst hxk
            rw [filter_insert_eq l.leaves (wf_sorted l hwl)]
            have hxr : r.leaves.filter (fun n => n.key == x) = [] := by
              rw [List.filter_eq_nil_iff]
              intro n hn
              simp only [beq_iff_eq]
              intro he
              have := (hc2 n.key (key_mem_leafKeys hn)).2
              rw [he] at this
              omega
            rw [List.filter_append, hxr, List.append_nil] at hc5
            rw [hxr, List.append_nil, List.head?_append, hc5,
              Option.or_some]
          · rw [filter_insert_ne hxk, ← List.filter_append]
            exact hc5
      · -- walk down to the right child
        have hb : ¬obit < 0 := fun hb => h1 (Or.inl hb)
        have hdiv : ¬(x ^^^ okey) >>> obit.toNat ≥ EB_NODE_BRANCHES :=
          fun hd => h1 (Or.inr hd)
        obtain ⟨hc1, hc2, hc3, hc4, hc5, hwl, hwr⟩ :=
          (wfB_node_pos hb).1 hwf
        have hpre : x >>> (obit.toNat + 1) = okey >>> (obit.toNat + 1) := by
          rw [EB_NODE_BRANCHES, ge_iff_le, ← not_lt, not_not,
            shiftRight_lt_two_iff, xor_shiftRight_eq_zero_iff] at hdiv
          exact hdiv
        have hpar : (x >>> obit.toNat) % 2 = 1 := by
          rw [ebSideSingle, Nat.and_one_is_mod] at h4
          omega
        have huniqr : uniq = false ∨ x ∉ r.leafKeys :=
          huniq.imp (fun h => h) fun h hx =>
            h (by rw [leafKeys_node]; exact List.mem_append_right _ hx)
        refine (wfB_node_pos hb).2
          ⟨hc1, ?_, hc3, ?_, ?_, hwl, ihr hwr huniqr⟩
        · intro k' hk'
          rcases eb128_insertAux_keys_mem uniq id x r hwr huniqr k' hk'
            with rfl | hm
          · exact ⟨hpre, hpar⟩
          · exact hc2 k' hm
        · have hagree : ∀ k' ∈ r.leafKeys,
              k' >>> obit.toNat = x >>> obit.toNat := fun k' hk' =>
            shiftRight_eq_of_succ obit.toNat
              ((hc2 k' hk').1.trans hpre.symm)
              (by rw [(hc2 k' hk').2, hpar])
          have := eb128_insertAux_rootBitLt uniq id x r hwr obit.toNat hagree
          rwa [Int.toNat_of_nonneg (by omega)] at this
        · rw [eb128_insertAux_leaves uniq id x r hwr huniqr,
            List.filter_append]
          by_cases hxk : x = okey
          · subst hxk
            rw [filter_insert_eq r.leaves (wf_sorted r hwr)]
            have hxl : l.leaves.filter (fun n => n.key == x) = [] := by
              rw [List.filter_eq_nil_iff]
              intro n hn
              simp only [beq_iff_eq]
              intro he
              have := (hc1 n.key (key_mem_leafKeys hn)).2
              rw [he] at this
              omega
            rw [List.filter_append, hxl, List.nil_append] at hc5
            have hrne : r.leaves.filter (fun n => n.key == x) ≠ [] := by
              intro hnil
              rw [hnil] at hc5
              simp at hc5
            rw [hxl, List.nil_append, List.head?_append,
              or_head?_of_ne_nil _ hrne, hc5]
          · rw [filter_insert_ne hxk, ← List.filter_append]
            exact hc5

/-- On a unique-tagged tree with pairwise distinct keys, inserting an
already-present key is a no-op returning the preexisting record. -/
theorem eb128_insertAux_unique_mem (id x : Nat) (t : EbTree)
    (hwf : wfB t = true) (hnd : t.leafKeys.Nodup) (hx : x ∈ t.leafKeys) :
    (eb128_insertAux true id x t).1 = t ∧
      ∃ oid, (eb128_insertAux true id x t).2 = ⟨oid, x⟩ ∧
        (⟨oid, x⟩ : EbRec) ∈ t.leaves := by
  induction t with
  | leaf oid okey =>
      have hk : x = okey := by simpa using hx
      rw [eb128_insertAux]
      rw [if_neg (by omega), if_pos ⟨hk, rfl⟩]
      exact ⟨rfl, oid, by rw [hk], by simp [hk]⟩
  | node oid okey obit l r ihl ihr =>
      have hbpos : ¬obit < 0 := by
        intro hb
        obtain ⟨-, hall, -, -⟩ := (wfB_node_neg hb).1 hwf
        obtain ⟨a, ha⟩ := List.exists_mem_of_ne_nil _ (leafKeys_ne_nil l)
        obtain ⟨b, hb'⟩ := List.exists_mem_of_ne_nil _ (leafKeys_ne_nil r)
        rw [leafKeys_node] at hnd
        have hdisj := (List.nodup_append.1 hnd).2.2
        have ha' : a = okey := hall a (List.mem_append_left _ ha)
        have hb'' : b = okey := hall b (List.mem_append_right _ hb')
        exact hdisj (ha' ▸ ha) (hb'' ▸ hb')
      obtain ⟨hc1, hc2, -, -, -, hwl, hwr⟩ := (wfB_node_pos hbpos).1 hwf
      have hxlr : x ∈ l.leafKeys ∨ x ∈ r.leafKeys := by
        rw [leafKeys_node] at hx
        exact List.mem_append.1 hx
      have hpre : x >>> (obit.toNat + 1) = okey >>> (obit.toNat + 1) := by
        rcases hxlr with h | h
        · exact (hc1 x h).1
        · exact (hc2 x h).1
      have hstop : ¬(obit < 0 ∨
          (x ^^^ okey) >>> obit.toNat ≥ EB_NODE_BRANCHES) := by
        push_neg
        refine ⟨by omega, ?_⟩
        rw [EB_NODE_BRANCHES, shiftRight_lt_two_iff,
          xor_shiftRight_eq_zero_iff]
        exact hpre
      rw [eb128_insertAux, if_neg hstop]
      rw [leafKeys_node] at hnd
      rcases hxlr with hxl | hxl
      · have hpar : (x >>> obit.toNat) % 2 = 0 := (hc1 x hxl).2
        rw [if_pos (by rw [ebSideSingle, Nat.and_one_is_mod]; exact hpar)]
        obtain ⟨heq, oid', hret, hmem⟩ :=
          ihl hwl (List.nodup_append.1 hnd).1 hxl
        refine ⟨?_, oid', ?_, ?_⟩
        · show EbTree.node oid okey obit (eb128_insertAux true id x l).1 r
            = EbTree.node oid okey obit l r
          rw [heq]
        · show (eb128_insertAux true id x l).2 = _
          exact hret
        · rw [leaves_node]
          exact List.mem_append_left _ hmem
      · have hpar : (x >>> obit.toNat) % 2 = 1 := (hc2 x hxl).2
        rw [if_neg (by rw [ebSideSingle, Nat.and_one_is_mod]; omega)]
        obtain ⟨heq, oid', hret, hmem⟩ :=
          ihr hwr (List.nodup_append.1 hnd).2.1 hxl
        refine ⟨?_, oid', ?_, ?_⟩
        · show EbTree.node oid okey obit l (eb128_insertAux true id x r).1
            = EbTree.node oid okey obit l r
          rw [heq]
        · show (eb128_insertAux true id x r).2 = _
          exact hret
        · rw [leaves_node]
          exact List.mem_append_right _ hmem

/-- The leaves after insertion are a permutation of the new record put
in front of the old leaves. -/
theorem eb128_insertAux_leaves_perm (uniq : Bool) (id x : Nat)
    (t : EbTree) (hwf : wfB t = true)
    (huniq : uniq = false ∨ x ∉ t.leafKeys) :
    ((eb128_insertAux uniq id x t).1).leaves.Perm
      (⟨id, x⟩ :: t.leaves) := by
  rw [eb128_insertAux_leaves uniq id x t hwf huniq]
  have h := @List.perm_middle EbRec ⟨id, x⟩
    (t.leaves.takeWhile (fun n => decide (n.key ≤ x)))
    (t.leaves.dropWhile (fun n => decide (n.key ≤ x)))
  rw [List.takeWhile_append_dropWhile] at h
  exact h

/-- Keys after insertion are a permutation of the new key put in front
of the old keys. -/
theorem eb128_insertAux_keys_perm (uniq : Bool) (id x : Nat)
    (t : EbTree) (hwf : wfB t = true)
    (huniq : uniq = false ∨ x ∉ t.leafKeys) :
    ((eb128_insertAux uniq id x t).1).leafKeys.Perm (x :: t.leafKeys) := by
  have := (eb128_insertAux_leaves_perm uniq id x t hwf huniq).map EbRec.key
  simpa [EbTree.leafKeys] using this

/-- Every tree reachable by `eb128_insert` operations is well-formed,
and unique-tagged trees keep pairwise distinct keys. -/
theorem eb128_build_invariant (uniq : Bool) (ops : List (Nat × Nat)) :
    ∀ root : Option EbTree, wfRoot root = true →
      (uniq = true → (rootKeys root).Nodup) →
      wfRoot (ops.foldl
          (fun root op => (eb128_insert uniq root op.1 op.2).1) root) = true
        ∧ (uniq = true →
          (rootKeys (ops.foldl
            (fun root op => (eb128_insert uniq root op.1 op.2).1)
              root)).Nodup) := by
  induction ops with
  | nil => exact fun root h hnd => ⟨h, hnd⟩
  | cons op ops ih =>
      intro root h hnd
      rw [List.foldl_cons]
      apply ih
      · -- well-formedness after one insertion
        cases root with
        | none => rfl
        | some t =>
            by_cases hmem : op.2 ∈ t.leafKeys
            · cases hu : uniq
              · exact eb128_insertAux_wf false op.1 op.2 t h (Or.inl rfl)
              · have := eb128_insertAux_unique_mem op.1 op.2 t h
                  (hnd hu) hmem
                show wfB (eb128_insertAux true op.1 op.2 t).1 = true
                rw [this.1]
                exact h
            · exact eb128_insertAux_wf uniq op.1 op.2 t h (Or.inr hmem)
      · -- distinct keys are preserved on unique trees
        intro hu
        subst hu
        cases root with
        | none => simp [eb128_insert, rootKeys]
        | some t =>
            by_cases hmem : op.2 ∈ t.leafKeys
            · have := eb128_insertAux_unique_mem op.1 op.2 t h (hnd rfl) hmem
              show ((eb128_insertAux true op.1 op.2 t).1).leafKeys.Nodup
              rw [this.1]
              exact hnd rfl
            · have hperm := eb128_insertAux_keys_perm true op.1 op.2 t h
                (Or.inr hmem)
              exact hperm.nodup_iff.2 (List.nodup_cons.2 ⟨hmem, hnd rfl⟩)

/-- Well-formedness implies the claimed bit ordering. -/
theorem wf_bitsOrdered (t : EbTree) (hwf : wfB t = true) :
    bitsOrdered t = true := by
  induction t with
  | leaf i k => rfl
  | node i k bit l r ihl ihr =>
      rw [bitsOrdered]
      by_cases hb : bit < 0
      · obtain ⟨hb1, -, hdl, hdr⟩ := (wfB_node_neg hb).1 hwf
        rw [if_pos hb]
        simp [hb1, hdl, hdr]
      · obtain ⟨-, -, h3, h4, -, hwl, hwr⟩ := (wfB_node_pos hb).1 hwf
        rw [if_neg hb]
        simp [h3, h4, ihl hwl, ihr hwr]

/-- Occurrence of a subtree within a branch. -/
def subtreeMem (s : EbTree) : EbTree → Bool
  | .leaf i k => s == .leaf i k
  | .node i k b l r =>
      s == .node i k b l r || subtreeMem s l || subtreeMem s r

/-- First duplication of a key: the new record's node side is spliced in
place of the old leaf as the duplicate sentinel (`bit = -1`), with the
old leaf on its left branch and its own leaf on its right branch. -/
theorem eb128_insertAux_first_dup (id x oid : Nat) (t : EbTree)
    (hwf : wfB t = true)
    (hone : t.leaves.filter (fun n => n.key == x) = [⟨oid, x⟩]) :
    subtreeMem (.node id x (-1) (.leaf oid x) (.leaf id x))
      (eb128_insertAux false id x t).1 = true := by
  induction t with
  | leaf oid' okey =>
      have hko : okey = x ∧ oid' = oid := by
        rw [EbTree.leaves, List.filter_cons] at hone
        by_cases hk : okey = x
        · rw [if_pos (by simp [hk]), List.filter_nil] at hone
          have h1 : (⟨oid', okey⟩ : EbRec) = ⟨oid, x⟩ := by
            simpa using hone
          exact ⟨congrArg EbRec.key h1, congrArg EbRec.id h1⟩
        · rw [if_neg (by simp [hk]), List.filter_nil] at hone
          simp at hone
      obtain ⟨rfl, rfl⟩ : okey = x ∧ oid' = oid := hko
      rw [eb128_insertAux]
      rw [if_neg (by omega), if_neg (by simp), if_pos rfl]
      simp [subtreeMem]
  | node oid' okey obit l r ihl ihr =>
      have hx : x ∈ (EbTree.node oid' okey obit l r).leafKeys := by
        have hm : (⟨oid, x⟩ : EbRec)
            ∈ (EbTree.node oid' okey obit l r).leaves.filter
              (fun n => n.key == x) := by
          rw [hone]
          exact List.mem_cons_self _ _
        exact mem_leafKeys_iff.2
          ⟨⟨oid, x⟩, List.mem_of_mem_filter hm, rfl⟩
      have hbpos : ¬obit < 0 := by
        intro hb
        obtain ⟨-, hall, -, -⟩ := (wfB_node_neg hb).1 hwf
        have hkx : okey = x := by
          rw [leafKeys_node] at hx
          exact (hall x hx).symm
        have hflt : (EbTree.node oid' okey obit l r).leaves.filter
            (fun n => n.key == x) = l.leaves ++ r.leaves := by
          rw [leaves_node]
          refine @filter_key_eq_self (EbTree.node oid' okey obit l r) _ ?_
          rw [leafKeys_node]
          intro k' hk'
          rw [hall k' hk', hkx]
        rw [hflt] at hone
        have hlen := congrArg List.length hone
        rw [List.length_append] at hlen
        have hl1 := List.length_pos.2 (leaves_ne_nil l)
        have hr1 := List.length_pos.2 (leaves_ne_nil r)
        simp only [List.length_singleton] at hlen
        omega
      obtain ⟨hc1, hc2, -, -, -, hwl, hwr⟩ := (wfB_node_pos hbpos).1 hwf
      have hxlr : x ∈ l.leafKeys ∨ x ∈ r.leafKeys := by
        rw [leafKeys_node] at hx
        exact List.mem_append.1 hx
      have hpre : x >>> (obit.toNat + 1) = okey >>> (obit.toNat + 1) := by
        rcases hxlr with h | h
        · exact (hc1 x h).1
        · exact (hc2 x h).1
      have hstop : ¬(obit < 0 ∨
          (x ^^^ okey) >>> obit.toNat ≥ EB_NODE_BRANCHES) := by
        push_neg
        refine ⟨by omega, ?_⟩
        rw [EB_NODE_BRANCHES, shiftRight_lt_two_iff,
          xor_shiftRight_eq_zero_iff]
        exact hpre
      rw [eb128_insertAux, if_neg hstop]
      rw [leaves_node, List.filter_append] at hone
      rcases hxlr with hxl | hxl
      · have hpar : (x >>> obit.toNat) % 2 = 0 := (hc1 x hxl).2
        have hxr : x ∉ r.leafKeys := by
          intro hm
          have := (hc2 x hm).2
          omega
        rw [filter_key_eq_nil hxr, List.append_nil] at hone
        rw [if_pos (by rw [ebSideSingle, Nat.and_one_is_mod]; exact hpar)]
        have := ihl hwl hone
        simp [subtreeMem, this]
      · have hpar : (x >>> obit.toNat) % 2 = 1 := (hc2 x hxl).2
        have hxl' : x ∉ l.leafKeys := by
          intro hm
          have := (hc1 x hm).2
          omega
        rw [filter_key_eq_nil hxl', List.nil_append] at hone
        rw [if_neg (by rw [ebSideSingle, Nat.and_one_is_mod]; omega)]
        have := ihr hwr hone
        simp [subtreeMem, this]

/-! ## Root-level correctness statements -/

theorem eb128_lookup_le_eq (root : Option EbTree) (x : Nat)
    (hwf : wfRoot root = true) :
    eb128_lookup_le root x
      = ((rootLeaves root).filter (fun n => decide (n.key ≤ x))).getLast? := by
  cases root with
  | none => rfl
  | some t => exact eb128_lookup_leAux_eq t x hwf

theorem eb128_lookup_ge_eq (root : Option EbTree) (x : Nat)
    (hwf : wfRoot root = true) :
    eb128_lookup_ge root x
      = ((rootLeaves root).filter (fun n => decide (x ≤ n.key))).head? := by
  cases root with
  | none => rfl
  | some t => exact eb128_lookup_geAux_eq t x hwf

theorem eb128_lookup_mem_eq (root : Option EbTree) (x : Nat)
    (hwf : wfRoot root = true) (hx : x ∈ rootKeys root) :
    eb128_lookup root x
      = .ok (((rootLeaves root).filter (fun n => n.key == x)).head?) := by
  cases root with
  | none => simp [rootKeys] at hx
  | some t => exact eb128_lookupAux_mem t x hwf hx

theorem eb128_lookup_not_mem (root : Option EbTree) (x : Nat)
    (hwf : wfRoot root = true) (hx : x ∉ rootKeys root) :
    eb128_lookup root x = .ok none ∨ eb128_lookup root x = .error () := by
  cases root with
  | none => exact Or.inl rfl
  | some t => exact eb128_lookupAux_not_mem t x hwf hx

/-- The key sequence of a well-formed root is non-decreasing. -/
theorem wfRoot_sorted (root : Option EbTree) (hwf : wfRoot root = true) :
    (rootKeys root).Pairwise (· ≤ ·) := by
  cases root with
  | none => simp [rootKeys]
  | some t => exact wf_sorted t hwf

/-! ## Order utilities on sorted record lists -/

theorem mem_of_getLast?_eq {α : Type} {l : List α} {a : α}
    (h : l.getLast? = some a) : a ∈ l := by
  induction l with
  | nil => simp at h
  | cons b l ih =>
      cases l with
      | nil =>
          have : b = a := by simpa using h
          simp [this]
      | cons c l' =>
          rw [List.getLast?_cons_cons] at h
          exact List.mem_cons_of_mem b (ih h)

/-- In a key-sorted record list, the last element has the greatest key. -/
theorem sorted_le_getLast? {L : List EbRec}
    (hs : (L.map EbRec.key).Pairwise (· ≤ ·)) {n : EbRec}
    (hn : L.getLast? = some n) : ∀ m ∈ L, m.key ≤ n.key := by
  induction L with
  | nil => simp at hn
  | cons a L ih =>
      rw [List.map_cons, List.pairwise_cons] at hs
      intro m hm
      cases L with
      | nil =>
          have hna : a = n := by simpa using hn
          have hma : m = a := by simpa using hm
          rw [hma, hna]
      | cons b L' =>
          rw [List.getLast?_cons_cons] at hn
          rcases List.mem_cons.1 hm with rfl | hm'
          · have hnmem : n ∈ b :: L' := mem_of_getLast?_eq hn
            exact hs.1 n.key (List.mem_map.2 ⟨n, hnmem, rfl⟩)
          · exact ih hs.2 hn m hm'

/-- In a key-sorted record list, the first element has the least key. -/
theorem sorted_ge_head? {L : List EbRec}
    (hs : (L.map EbRec.key).Pairwise (· ≤ ·)) {n : EbRec}
    (hn : L.head? = some n) : ∀ m ∈ L, n.key ≤ m.key := by
  cases L with
  | nil => simp at hn
  | cons a L =>
      have hna : a = n := by simpa using hn
      rw [List.map_cons, List.pairwise_cons] at hs
      intro m hm
      rcases List.mem_cons.1 hm with rfl | hm'
      · rw [hna]
      · rw [← hna]
        exact hs.1 m.key (List.mem_map.2 ⟨m, hm', rfl⟩)

/-- On a key-sorted record list holding `k`, the last record with key
`≤ k` is the last record with key `= k`. -/
theorem sorted_filter_le_getLast?_eq {L : List EbRec} (k : Nat)
    (hs : (L.map EbRec.key).Pairwise (· ≤ ·))
    (hk : ∃ m ∈ L, m.key = k) :
    (L.filter (fun n => decide (n.key ≤ k))).getLast?
      = (L.filter (fun n => n.key == k)).getLast? := by
  induction L with
  | nil => simp at hk
  | cons a L ih =>
      rw [List.map_cons, List.pairwise_cons] at hs
      rw [List.filter_cons, List.filter_cons]
      by_cases hak : a.key = k
      · rw [if_pos (by simp [hak]), if_pos (by simp [hak])]
        have hrest : L.filter (fun n => decide (n.key ≤ k))
            = L.filter (fun n => n.key == k) := by
          apply List.filter_congr
          intro m hm
          have hge : a.key ≤ m.key := hs.1 m.key (List.mem_map.2 ⟨m, hm, rfl⟩)
          show decide (m.key ≤ k) = (m.key == k)
          rw [Bool.eq_iff_iff]
          simp only [decide_eq_true_eq, beq_iff_eq]
          omega
        rw [hrest]
      · by_cases hle : a.key ≤ k
        · rw [if_pos (by simp [hle]), if_neg (by simp [hak])]
          obtain ⟨m, hm, hmk⟩ := hk
          have hmL : m ∈ L := by
            rcases List.mem_cons.1 hm with rfl | h
            · exact absurd hmk hak
            · exact h
          have hne : L.filter (fun n => n.key == k) ≠ [] :=
            List.ne_nil_of_mem (List.mem_filter.2 ⟨hmL, by simp [hmk]⟩)
          have hcons : (a :: L.filter (fun n => decide (n.key ≤ k)))
              = [a] ++ L.filter (fun n => decide (n.key ≤ k)) := rfl
          rw [hcons, List.getLast?_append, ih hs.2 ⟨m, hmL, hmk⟩,
            or_getLast?_of_ne_nil _ hne]
        · exfalso
          obtain ⟨m, hm, hmk⟩ := hk
          rcases List.mem_cons.1 hm with rfl | h
          · exact hak hmk
          · have := hs.1 m.key (List.mem_map.2 ⟨m, h, rfl⟩)
            omega

/-- On a key-sorted record list holding `k`, the first record with key
`≥ k` is the first record with key `= k`. -/
theorem sorted_filter_ge_head?_eq {L : List EbRec} (k : Nat)
    (hs : (L.map EbRec.key).Pairwise (· ≤ ·))
    (hk : ∃ m ∈ L, m.key = k) :
    (L.filter (fun n => decide (k ≤ n.key))).head?
      = (L.filter (fun n => n.key == k)).head? := by
  induction L with
  | nil => simp at hk
  | cons a L ih =>
      rw [List.map_cons, List.pairwise_cons] at hs
      rw [List.filter_cons, List.filter_cons]
      by_cases hak : a.key = k
      · rw [if_pos (by simp [hak]), if_pos (by simp [hak])]
        rfl
      · by_cases hge : k ≤ a.key
        · exfalso
          obtain ⟨m, hm, hmk⟩ := hk
          rcases List.mem_cons.1 hm with rfl | h
          · exact hak hmk
          · have := hs.1 m.key (List.mem_map.2 ⟨m, h, rfl⟩)
            omega
        · rw [if_neg (by simpa using hge), if_neg (by simp [hak])]
          obtain ⟨m, hm, hmk⟩ := hk
          have hmL : m ∈ L := by
            rcases List.mem_cons.1 hm with rfl | h
            · exact absurd hmk (by omega)
            · exact h
          exact ih hs.2 ⟨m, hmL, hmk⟩

theorem rootKeys_eq_map (root : Option EbTree) :
    rootKeys root = (rootLeaves root).map EbRec.key := by
  cases root with
  | none => rfl
  | some t => rfl

/-! ## Pointer tree (`ebpttree.c`)

`ebpt_lookup`, `ebpt_lookup_le`, `ebpt_lookup_ge` and `ebpt_insert`
dispatch on `sizeof(void *)` to the 32- or 64-bit scalar operations,
reinterpreting the pointer key through `(u32)(PTR_INT_TYPE)x` or
`(u64)(PTR_INT_TYPE)x` — embedded as reduction modulo `2^32` / `2^64`.
The scalar implementations `eb32tree.c` / `eb64tree.c` are not among the
sources; they are modelled from the spec (§2: one generic scalar-tree
mechanism parameterized by key width, §4.2). -/

/-- Modelled from the spec: the generic scalar-tree `lookup` of §4.2
(`eb32_lookup` / `eb64_lookup`, whose sources `eb32tree.c` /
`eb64tree.c` are missing): descend using the bits of `x`; on reaching a
leaf compare keys for equality; on reaching a duplicate sentinel whose
key equals `x` descend leftmost to return the first duplicate; `absent`
otherwise. -/
def ebScalarLookupAux : EbTree → Nat → Option EbRec
  | .leaf i k, x => if k = x then some ⟨i, k⟩ else none
  | .node _ k bit l r, x =>
      if bit < 0 then
        if k = x then some (eb_walk_down l EB_LEFT) else none
      else
        if (x >>> bit.toNat) &&& 1 = 0 then ebScalarLookupAux l x
        else ebScalarLookupAux r x

/-- Modelled from the spec: `eb32_lookup(root, x)` (source missing). -/
def eb32_lookup (root : Option EbTree) (x : Nat) : Option EbRec :=
  match root with
  | none => none
  | some t => ebScalarLookupAux t x

/-- Modelled from the spec: `eb64_lookup(root, x)` (source missing). -/
def eb64_lookup (root : Option EbTree) (x : Nat) : Option EbRec :=
  match root with
  | none => none
  | some t => ebScalarLookupAux t x

/-- Modelled from the spec: `eb32_lookup_le` (source missing) is the
same generic bounded descent as the 128-bit variant of §4.2. -/
def eb32_lookup_le (root : Option EbTree) (x : Nat) : Option EbRec :=
  eb128_lookup_le root x

/-- Modelled from the spec: `eb64_lookup_le` (source missing). -/
def eb64_lookup_le (root : Option EbTree) (x : Nat) : Option EbRec :=
  eb128_lookup_le root x

/-- Modelled from the spec: `eb32_lookup_ge` (source missing). -/
def eb32_lookup_ge (root : Option EbTree) (x : Nat) : Option EbRec :=
  eb128_lookup_ge root x

/-- Modelled from the spec: `eb64_lookup_ge` (source missing). -/
def eb64_lookup_ge (root : Option EbTree) (x : Nat) : Option EbRec :=
  eb128_lookup_ge root x

/-- Modelled from the spec: `eb32_insert` (source missing) is the same
generic scalar insertion as the 128-bit variant of §4.2. -/
def eb32_insert (uniq : Bool) (root : Option EbTree) (id key : Nat) :
    Option EbTree × EbRec :=
  eb128_insert uniq root id key

/-- Modelled from the spec: `eb64_insert` (source missing). -/
def eb64_insert (uniq : Bool) (root : Option EbTree) (id key : Nat) :
    Option EbTree × EbRec :=
  eb128_insert uniq root id key

/-- `ebpt_lookup(root, x)`: dispatch on the pointer width `psize`
(`sizeof(void *)`). -/
def ebpt_lookup (psize : Nat) (root : Option EbTree) (x : Nat) :
    Option EbRec :=
  if psize = 4 then eb32_lookup root (x % 2 ^ 32)
  else eb64_lookup root (x % 2 ^ 64)

/-- `ebpt_lookup_le(root, x)`. -/
def ebpt_lookup_le (psize : Nat) (root : Option EbTree) (x : Nat) :
    Option EbRec :=
  if psize = 4 then eb32_lookup_le root (x % 2 ^ 32)
  else eb64_lookup_le root (x % 2 ^ 64)

/-- `ebpt_lookup_ge(root, x)`. -/
def ebpt_lookup_ge (psize : Nat) (root : Option EbTree) (x : Nat) :
    Option EbRec :=
  if psize = 4 then eb32_lookup_ge root (x % 2 ^ 32)
  else eb64_lookup_ge root (x % 2 ^ 64)

/-- `ebpt_insert(root, new)`: the node is reinterpreted as an
`eb32_node` / `eb64_node`, its pointer key read at the scalar width. -/
def ebpt_insert (psize : Nat) (uniq : Bool) (root : Option EbTree)
    (id x : Nat) : Option EbTree × EbRec :=
  if psize = 4 then eb32_insert uniq root id (x % 2 ^ 32)
  else eb64_insert uniq root id (x % 2 ^ 64)

/-! ## Claim theorems -/

/-- C2: for every (well-formed) tree and key `x`, `eb128_lookup_le`
returns a node whose key is `≤ x` and is the greatest such stored key,
and returns absent exactly when the tree is empty or every stored key is
greater than `x`; symmetrically `eb128_lookup_ge` returns the least
stored key `≥ x`, and absent exactly when the tree is empty or every
stored key is below `x`. -/
theorem C2_eb128_lookup_le_ge_correct (root : Option EbTree) (x : Nat)
    (hwf : wfRoot root = true) :
    (∀ n, eb128_lookup_le root x = some n →
      n.key ≤ x ∧ n.key ∈ rootKeys root ∧
        ∀ k ∈ rootKeys root, k ≤ x → k ≤ n.key) ∧
    (eb128_lookup_le root x = none ↔ ∀ k ∈ rootKeys root, x < k) ∧
    (∀ n, eb128_lookup_ge root x = some n →
      x ≤ n.key ∧ n.key ∈ rootKeys root ∧
        ∀ k ∈ rootKeys root, x ≤ k → n.key ≤ k) ∧
    (eb128_lookup_ge root x = none ↔ ∀ k ∈ rootKeys root, k < x) := by
  have hsL : ((rootLeaves root).map EbRec.key).Pairwise (· ≤ ·) := by
    rw [← rootKeys_eq_map]
    exact wfRoot_sorted root hwf
  rw [eb128_lookup_le_eq root x hwf, eb128_lookup_ge_eq root x hwf]
  refine ⟨?_, ?_, ?_, ?_⟩
  · intro n hn
    have hmemf := mem_of_getLast?_eq hn
    have hmemL := List.mem_of_mem_filter hmemf
    have hkey : n.key ≤ x := by
      simpa using (List.mem_filter.1 hmemf).2
    refine ⟨hkey, ?_, ?_⟩
    · rw [rootKeys_eq_map]
      exact List.mem_map.2 ⟨n, hmemL, rfl⟩
    · intro k hk hkx
      rw [rootKeys_eq_map] at hk
      obtain ⟨m, hm, rfl⟩ := List.mem_map.1 hk
      have hmf : m ∈ (rootLeaves root).filter
          (fun n => decide (n.key ≤ x)) :=
        List.mem_filter.2 ⟨hm, by simpa using hkx⟩
      have hsf : (((rootLeaves root).filter
            (fun n => decide (n.key ≤ x))).map EbRec.key).Pairwise
          (· ≤ ·) :=
        List.Pairwise.sublist ((List.filter_sublist _).map _) hsL
      exact sorted_le_getLast? hsf hn m hmf
  · rw [List.getLast?_eq_none_iff, List.filter_eq_nil_iff]
    constructor
    · intro h k hk
      rw [rootKeys_eq_map] at hk
      obtain ⟨m, hm, rfl⟩ := List.mem_map.1 hk
      have := h m hm
      simp only [decide_eq_true_eq] at this
      omega
    · intro h m hm
      have hmk : m.key ∈ rootKeys root := by
        rw [rootKeys_eq_map]
        exact List.mem_map.2 ⟨m, hm, rfl⟩
      have := h m.key hmk
      simp only [decide_eq_true_eq]
      omega
  · intro n hn
    obtain ⟨ys, hys⟩ := List.head?_eq_some_iff.1 hn
    have hmemf : n ∈ (rootLeaves root).filter
        (fun n => decide (x ≤ n.key)) := by
      rw [hys]
      exact List.mem_cons_self _ _
    have hmemL := List.mem_of_mem_filter hmemf
    have hkey : x ≤ n.key := by
      simpa using (List.mem_filter.1 hmemf).2
    refine ⟨hkey, ?_, ?_⟩
    · rw [rootKeys_eq_map]
      exact List.mem_map.2 ⟨n, hmemL, rfl⟩
    · intro k hk hkx
      rw [rootKeys_eq_map] at hk
      obtain ⟨m, hm, rfl⟩ := List.mem_map.1 hk
      have hmf : m ∈ (rootLeaves root).filter
          (fun n => decide (x ≤ n.key)) :=
        List.mem_filter.2 ⟨hm, by simpa using hkx⟩
      have hsf : (((rootLeaves root).filter
            (fun n => decide (x ≤ n.key))).map EbRec.key).Pairwise
          (· ≤ ·) :=
        List.Pairwise.sublist ((List.filter_sublist _).map _) hsL
      exact sorted_ge_head? hsf hn m hmf
  · rw [List.head?_eq_none_iff, List.filter_eq_nil_iff]
    constructor
    · intro h k hk
      rw [rootKeys_eq_map] at hk
      obtain ⟨m, hm, rfl⟩ := List.mem_map.1 hk
      have := h m hm
      simp only [decide_eq_true_eq] at this
      omega
    · intro h m hm
      have hmk : m.key ∈ rootKeys root := by
        rw [rootKeys_eq_map]
        exact List.mem_map.2 ⟨m, hm, rfl⟩
      have := h m.key hmk
      simp only [decide_eq_true_eq]
      omega

/-- Witness for C2 on the tree `{10, 20, 30}` at `x = 15`. -/
theorem C2_witness :
    wfRoot (eb128_build false [(1, 10), (2, 20), (3, 30)]) = true ∧
    ((∀ n, eb128_lookup_le (eb128_build false [(1, 10), (2, 20), (3, 30)])
          15 = some n →
      n.key ≤ 15 ∧
        n.key ∈ rootKeys (eb128_build false [(1, 10), (2, 20), (3, 30)]) ∧
        ∀ k ∈ rootKeys (eb128_build false [(1, 10), (2, 20), (3, 30)]),
          k ≤ 15 → k ≤ n.key) ∧
    (eb128_lookup_le (eb128_build false [(1, 10), (2, 20), (3, 30)]) 15
        = none ↔
      ∀ k ∈ rootKeys (eb128_build false [(1, 10), (2, 20), (3, 30)]),
        15 < k) ∧
    (∀ n, eb128_lookup_ge (eb128_build false [(1, 10), (2, 20), (3, 30)])
          15 = some n →
      15 ≤ n.key ∧
        n.key ∈ rootKeys (eb128_build false [(1, 10), (2, 20), (3, 30)]) ∧
        ∀ k ∈ rootKeys (eb128_build false [(1, 10), (2, 20), (3, 30)]),
          15 ≤ k → n.key ≤ k) ∧
    (eb128_lookup_ge (eb128_build false [(1, 10), (2, 20), (3, 30)]) 15
        = none ↔
      ∀ k ∈ rootKeys (eb128_build false [(1, 10), (2, 20), (3, 30)]),
        k < 15)) :=
  ⟨by decide, C2_eb128_lookup_le_ge_correct
    (eb128_build false [(1, 10), (2, 20), (3, 30)]) 15 (by decide)⟩

/-- C4: on a unique-tagged tree (reachable by `eb128_insert` with the
unique tag) that already contains the key, insertion returns the
preexisting record — a pointer distinct from the argument — performs no
insertion and leaves every link unchanged. -/
theorem C4_eb128_insert_unique_duplicate (ops : List (Nat × Nat))
    (t : EbTree) (id x : Nat)
    (hbuild : eb128_build true ops = some t)
    (hx : x ∈ t.leafKeys)
    (hid : ∀ n ∈ t.leaves, n.id ≠ id) :
    (eb128_insertAux true id x t).1 = t ∧
      (eb128_insertAux true id x t).2.key = x ∧
      (eb128_insertAux true id x t).2 ∈ t.leaves ∧
      (eb128_insertAux true id x t).2.id ≠ id := by
  have hinv := eb128_build_invariant true ops none rfl
    (fun _ => List.Pairwise.nil)
  have hwfr : wfRoot (eb128_build true ops) = true := hinv.1
  have hndr : (rootKeys (eb128_build true ops)).Nodup := hinv.2 rfl
  rw [hbuild] at hwfr hndr
  obtain ⟨heq, oid, hret, hmem⟩ :=
    eb128_insertAux_unique_mem id x t hwfr hndr hx
  refine ⟨heq, by rw [hret], by rw [hret]; exact hmem, ?_⟩
  rw [hret]
  exact hid ⟨oid, x⟩ hmem

/-- Witness for C4 on the unique tree `{42}`. -/
theorem C4_witness :
    eb128_build true [(1, 42)] = some (.leaf 1 42) ∧
    42 ∈ (EbTree.leaf 1 42).leafKeys ∧
    (∀ n ∈ (EbTree.leaf 1 42).leaves, n.id ≠ 2) ∧
    ((eb128_insertAux true 2 42 (.leaf 1 42)).1 = .leaf 1 42 ∧
      (eb128_insertAux true 2 42 (.leaf 1 42)).2.key = 42 ∧
      (eb128_insertAux true 2 42 (.leaf 1 42)).2 ∈ (EbTree.leaf 1 42).leaves ∧
      (eb128_insertAux true 2 42 (.leaf 1 42)).2.id ≠ 2) :=
  ⟨by decide, by decide, by decide,
    C4_eb128_insert_unique_duplicate [(1, 42)] (.leaf 1 42) 2 42
      (by decide) (by decide) (by decide)⟩

/-- C5 counterexample: on the tree built from keys `8, 8, 12`, looking
up the absent key `10` does not return absent — the descent reaches the
duplicate sentinel (`bit = -1`) with a differing key and evaluates
`y >> -1`, which is undefined behaviour in C (modelled as an error). -/
theorem C5_counterexample :
    ¬(eb128_lookup (eb128_build false [(1, 8), (2, 8), (3, 12)]) 10
        = .ok none) ∧
    eb128_lookup (eb128_build false [(1, 8), (2, 8), (3, 12)]) 10
      = .error () := by
  have h : eb128_lookup (eb128_build false [(1, 8), (2, 8), (3, 12)]) 10
      = .error () := rfl
  refine ⟨?_, h⟩
  rw [h]
  intro hc
  exact Except.noConfusion hc

/-- C5 (amended): on every well-formed tree, `eb128_lookup` returns a
node whose key equals `x` whenever some stored key equals `x` — the
leftmost leaf of the duplicate subtree, i.e. the first-inserted
duplicate; when no stored key equals `x` it returns absent unless the
descent reaches a duplicate sentinel whose key differs from `x`, where
it evaluates a negative-amount shift (undefined behaviour). -/
theorem C5_eb128_lookup_correct_amended (root : Option EbTree) (x : Nat)
    (hwf : wfRoot root = true) :
    (x ∈ rootKeys root →
      eb128_lookup root x
        = .ok (((rootLeaves root).filter (fun n => n.key == x)).head?) ∧
      ∃ n, ((rootLeaves root).filter (fun n => n.key == x)).head?
          = some n ∧ n.key = x) ∧
    (x ∉ rootKeys root →
      eb128_lookup root x = .ok none ∨
        eb128_lookup root x = .error ()) := by
  constructor
  · intro hx
    refine ⟨eb128_lookup_mem_eq root x hwf hx, ?_⟩
    have hex : ∃ m ∈ rootLeaves root, m.key = x := by
      rw [rootKeys_eq_map] at hx
      obtain ⟨m, hm, hmk⟩ := List.mem_map.1 hx
      exact ⟨m, hm, hmk⟩
    obtain ⟨m, hm, hmk⟩ := hex
    have hne : (rootLeaves root).filter (fun n => n.key == x) ≠ [] :=
      List.ne_nil_of_mem (List.mem_filter.2 ⟨hm, by simp [hmk]⟩)
    cases hh : ((rootLeaves root).filter (fun n => n.key == x)).head? with
    | none => exact absurd (List.head?_eq_none_iff.1 hh) hne
    | some n =>
        refine ⟨n, rfl, ?_⟩
        obtain ⟨ys, hys⟩ := List.head?_eq_some_iff.1 hh
        have : n ∈ (rootLeaves root).filter (fun n => n.key == x) := by
          rw [hys]
          exact List.mem_cons_self _ _
        simpa using (List.mem_filter.1 this).2
  · exact eb128_lookup_not_mem root x hwf

/-- Witness for C5 (amended) on the tree `{5, 5, 8}` at `x = 5`. -/
theorem C5_witness :
    wfRoot (eb128_build false [(1, 5), (2, 5), (3, 8)]) = true ∧
    ((5 ∈ rootKeys (eb128_build false [(1, 5), (2, 5), (3, 8)]) →
      eb128_lookup (eb128_build false [(1, 5), (2, 5), (3, 8)]) 5
        = .ok (((rootLeaves (eb128_build false [(1, 5), (2, 5), (3, 8)])).filter
            (fun n => n.key == 5)).head?) ∧
      ∃ n, ((rootLeaves (eb128_build false [(1, 5), (2, 5), (3, 8)])).filter
            (fun n => n.key == 5)).head? = some n ∧ n.key = 5) ∧
    (5 ∉ rootKeys (eb128_build false [(1, 5), (2, 5), (3, 8)]) →
      eb128_lookup (eb128_build false [(1, 5), (2, 5), (3, 8)]) 5 = .ok none ∨
        eb128_lookup (eb128_build false [(1, 5), (2, 5), (3, 8)]) 5
          = .error ())) :=
  ⟨by decide, C5_eb128_lookup_correct_amended
    (eb128_build false [(1, 5), (2, 5), (3, 8)]) 5 (by decide)⟩

/-- C6: every tree reachable from the empty tree by `eb128_insert`
operations keeps every ordinary internal node's bit strictly greater
than that of its children linked as internal nodes, with duplicate
sentinels (`bit = -1`) strictly below every ordinary internal node; the
spliced node's bit `fls128(new.key ^ old.key) - 1` is the most
significant differing bit, strictly below the parent's bit. -/
theorem C6_eb128_insert_bit_invariant (uniq : Bool)
    (ops : List (Nat × Nat)) (t : EbTree)
    (hbuild : eb128_build uniq ops = some t) :
    bitsOrdered t = true ∧
    (∀ a b : Nat, a ≠ b →
      a >>> (fls128 (a ^^^ b) - EB_NODE_BITS + 1)
          = b >>> (fls128 (a ^^^ b) - EB_NODE_BITS + 1) ∧
        (a >>> (fls128 (a ^^^ b) - EB_NODE_BITS)) % 2
          ≠ (b >>> (fls128 (a ^^^ b) - EB_NODE_BITS)) % 2) := by
  have hinv := eb128_build_invariant uniq ops none rfl
    (fun _ => List.Pairwise.nil)
  have hwfr : wfRoot (eb128_build uniq ops) = true := hinv.1
  rw [hbuild] at hwfr
  exact ⟨wf_bitsOrdered t hwfr, fun a b hab => fls128_xor_spec hab⟩

/-- Witness for C6 on the tree built from keys `4, 4, 6`. -/
theorem C6_witness :
    eb128_build false [(1, 4), (2, 4), (3, 6)]
      = some (.node 3 6 1
          (.node 2 4 (-1) (.leaf 1 4) (.leaf 2 4)) (.leaf 3 6)) ∧
    (bitsOrdered (.node 3 6 1
      (.node 2 4 (-1) (.leaf 1 4) (.leaf 2 4)) (.leaf 3 6)) = true ∧
    (∀ a b : Nat, a ≠ b →
      a >>> (fls128 (a ^^^ b) - EB_NODE_BITS + 1)
          = b >>> (fls128 (a ^^^ b) - EB_NODE_BITS + 1) ∧
        (a >>> (fls128 (a ^^^ b) - EB_NODE_BITS)) % 2
          ≠ (b >>> (fls128 (a ^^^ b) - EB_NODE_BITS)) % 2)) :=
  ⟨by decide, C6_eb128_insert_bit_invariant false [(1, 4), (2, 4), (3, 6)]
    (.node 3 6 1 (.node 2 4 (-1) (.leaf 1 4) (.leaf 2 4)) (.leaf 3 6))
    (by decide)⟩

/-- C7: on a (well-formed, non-unique) tree already holding the key,
insertion attaches the new record as the rightmost leaf of the key's
duplicate subtree — on first duplication the new record itself becomes
the sentinel internal node (`bit = -1`) holding the old leaf on its left
branch and its own leaf on its right branch — so in-order traversal
visits equal keys in insertion order. -/
theorem C7_eb128_insert_duplicate_order (t : EbTree) (id x : Nat)
    (hwf : wfB t = true) (_hx : x ∈ t.leafKeys) :
    (eb128_insertAux false id x t).2 = ⟨id, x⟩ ∧
    ((eb128_insertAux false id x t).1).leaves
      = t.leaves.takeWhile (fun n => decide (n.key ≤ x))
        ++ ⟨id, x⟩ :: t.leaves.dropWhile (fun n => decide (n.key ≤ x)) ∧
    ((eb128_insertAux false id x t).1).leaves.filter
        (fun n => n.key == x)
      = t.leaves.filter (fun n => n.key == x) ++ [⟨id, x⟩] ∧
    (∀ oid, t.leaves.filter (fun n => n.key == x) = [⟨oid, x⟩] →
      subtreeMem (.node id x (-1) (.leaf oid x) (.leaf id x))
        (eb128_insertAux false id x t).1 = true) := by
  refine ⟨eb128_insertAux_ret false id x t (Or.inl rfl),
    eb128_insertAux_leaves false id x t hwf (Or.inl rfl), ?_, ?_⟩
  · rw [eb128_insertAux_leaves false id x t hwf (Or.inl rfl)]
    exact filter_insert_eq t.leaves (wf_sorted t hwf)
  · intro oid hone
    exact eb128_insertAux_first_dup id x oid t hwf hone

/-- Witness for C7: inserting a second `5` above the single leaf `5`. -/
theorem C7_witness :
    wfB (.leaf 1 5) = true ∧ 5 ∈ (EbTree.leaf 1 5).leafKeys ∧
    ((eb128_insertAux false 2 5 (.leaf 1 5)).2 = ⟨2, 5⟩ ∧
    ((eb128_insertAux false 2 5 (.leaf 1 5)).1).leaves
      = (EbTree.leaf 1 5).leaves.takeWhile (fun n => decide (n.key ≤ 5))
        ++ ⟨2, 5⟩ :: (EbTree.leaf 1 5).leaves.dropWhile
          (fun n => decide (n.key ≤ 5)) ∧
    ((eb128_insertAux false 2 5 (.leaf 1 5)).1).leaves.filter
        (fun n => n.key == 5)
      = (EbTree.leaf 1 5).leaves.filter (fun n => n.key == 5)
        ++ [⟨2, 5⟩] ∧
    (∀ oid, (EbTree.leaf 1 5).leaves.filter (fun n => n.key == 5)
        = [⟨oid, 5⟩] →
      subtreeMem (.node 2 5 (-1) (.leaf oid 5) (.leaf 2 5))
        (eb128_insertAux false 2 5 (.leaf 1 5)).1 = true)) :=
  ⟨by decide, by decide,
    C7_eb128_insert_duplicate_order (.leaf 1 5) 2 5 (by decide) (by decide)⟩

/-- C10: on a (well-formed, non-unique) tree holding several records
with the same key `k`, if `k` is the greatest stored key `≤ x` then
`eb128_lookup_le` returns the rightmost leaf of `k`'s duplicate subtree
(the most recently inserted duplicate) whereas `eb128_lookup` at `k`
returns the leftmost leaf (the first-inserted duplicate); mirror for
`eb128_lookup_ge`, which returns the leftmost duplicate of the least
stored key `≥ x`. -/
theorem C10_eb128_lookup_dup_ends (root : Option EbTree) (x k : Nat)
    (hwf : wfRoot root = true)
    (_hdup : 2 ≤ ((rootLeaves root).filter (fun n => n.key == k)).length)
    (hk : k ∈ rootKeys root) (hkx : k ≤ x)
    (hmax : ∀ k' ∈ rootKeys root, k' ≤ x → k' ≤ k) :
    eb128_lookup_le root x
      = ((rootLeaves root).filter (fun n => n.key == k)).getLast? ∧
    eb128_lookup root k
      = .ok (((rootLeaves root).filter (fun n => n.key == k)).head?) ∧
    ∀ x', x' ≤ k → (∀ k' ∈ rootKeys root, x' ≤ k' → k ≤ k') →
      eb128_lookup_ge root x'
        = ((rootLeaves root).filter (fun n => n.key == k)).head? := by
  have hsL : ((rootLeaves root).map EbRec.key).Pairwise (· ≤ ·) := by
    rw [← rootKeys_eq_map]
    exact wfRoot_sorted root hwf
  have hkex : ∃ m ∈ rootLeaves root, m.key = k := by
    rw [rootKeys_eq_map] at hk
    obtain ⟨m, hm, hmk⟩ := List.mem_map.1 hk
    exact ⟨m, hm, hmk⟩
  refine ⟨?_, eb128_lookup_mem_eq root k hwf hk, ?_⟩
  · rw [eb128_lookup_le_eq root x hwf]
    have hcong : (rootLeaves root).filter (fun n => decide (n.key ≤ x))
        = (rootLeaves root).filter (fun n => decide (n.key ≤ k)) := by
      apply List.filter_congr
      intro m hm
      have hmk : m.key ∈ rootKeys root := by
        rw [rootKeys_eq_map]
        exact List.mem_map.2 ⟨m, hm, rfl⟩
      show decide (m.key ≤ x) = decide (m.key ≤ k)
      rw [decide_eq_decide]
      exact ⟨fun h => hmax m.key hmk h, fun h => Nat.le_trans h hkx⟩
    rw [hcong]
    exact sorted_filter_le_getLast?_eq k hsL hkex
  · intro x' hx'k hmin
    rw [eb128_lookup_ge_eq root x' hwf]
    have hcong : (rootLeaves root).filter (fun n => decide (x' ≤ n.key))
        = (rootLeaves root).filter (fun n => decide (k ≤ n.key)) := by
      apply List.filter_congr
      intro m hm
      have hmk : m.key ∈ rootKeys root := by
        rw [rootKeys_eq_map]
        exact List.mem_map.2 ⟨m, hm, rfl⟩
      show decide (x' ≤ m.key) = decide (k ≤ m.key)
      rw [decide_eq_decide]
      exact ⟨fun h => hmin m.key hmk h, fun h => Nat.le_trans hx'k h⟩
    rw [hcong]
    exact sorted_filter_ge_head?_eq k hsL hkex

/-- Witness for C10 on the tree `{5, 5, 8}` with `k = 5`, `x = 6`. -/
theorem C10_witness :
    (wfRoot (eb128_build false [(1, 5), (2, 5), (3, 8)]) = true ∧
     2 ≤ ((rootLeaves (eb128_build false [(1, 5), (2, 5), (3, 8)])).filter
        (fun n => n.key == 5)).length ∧
     5 ∈ rootKeys (eb128_build false [(1, 5), (2, 5), (3, 8)]) ∧
     (5 : Nat) ≤ 6 ∧
     (∀ k' ∈ rootKeys (eb128_build false [(1, 5), (2, 5), (3, 8)]),
       k' ≤ 6 → k' ≤ 5)) ∧
    (eb128_lookup_le (eb128_build false [(1, 5), (2, 5), (3, 8)]) 6
      = ((rootLeaves (eb128_build false [(1, 5), (2, 5), (3, 8)])).filter
          (fun n => n.key == 5)).getLast? ∧
    eb128_lookup (eb128_build false [(1, 5), (2, 5), (3, 8)]) 5
      = .ok (((rootLeaves (eb128_build false [(1, 5), (2, 5), (3, 8)])).filter
          (fun n => n.key == 5)).head?) ∧
    ∀ x', x' ≤ 5 →
      (∀ k' ∈ rootKeys (eb128_build false [(1, 5), (2, 5), (3, 8)]),
        x' ≤ k' → 5 ≤ k') →
      eb128_lookup_ge (eb128_build false [(1, 5), (2, 5), (3, 8)]) x'
        = ((rootLeaves (eb128_build false [(1, 5), (2, 5), (3, 8)])).filter
            (fun n => n.key == 5)).head?) :=
  ⟨⟨by decide, by decide, by decide, by decide, by decide⟩,
    C10_eb128_lookup_dup_ends (eb128_build false [(1, 5), (2, 5), (3, 8)])
      6 5 (by decide) (by decide) (by decide) (by decide) (by decide)⟩

/-- C8: each pointer-tree operation returns exactly what the
corresponding scalar operation returns on the reinterpreted key: with
`sizeof(void *) = 4` the `ebpt_*` operations equal the `eb32_*`
operations applied to `(u32)x`, otherwise the `eb64_*` operations
applied to `(u64)x`; on valid pointers (below the address-space bound)
the cast is the identity. -/
theorem C8_ebpt_dispatch (psize : Nat) (uniq : Bool)
    (root : Option EbTree) (id x : Nat) :
    (psize = 4 →
      ebpt_lookup psize root x = eb32_lookup root (x % 2 ^ 32) ∧
      ebpt_lookup_le psize root x = eb32_lookup_le root (x % 2 ^ 32) ∧
      ebpt_lookup_ge psize root x = eb32_lookup_ge root (x % 2 ^ 32) ∧
      ebpt_insert psize uniq root id x
        = eb32_insert uniq root id (x % 2 ^ 32) ∧
      (x < 2 ^ 32 → ebpt_lookup psize root x = eb32_lookup root x ∧
        ebpt_insert psize uniq root id x = eb32_insert uniq root id x)) ∧
    (psize ≠ 4 →
      ebpt_lookup psize root x = eb64_lookup root (x % 2 ^ 64) ∧
      ebpt_lookup_le psize root x = eb64_lookup_le root (x % 2 ^ 64) ∧
      ebpt_lookup_ge psize root x = eb64_lookup_ge root (x % 2 ^ 64) ∧
      ebpt_insert psize uniq root id x
        = eb64_insert uniq root id (x % 2 ^ 64) ∧
      (x < 2 ^ 64 → ebpt_lookup psize root x = eb64_lookup root x ∧
        ebpt_insert psize uniq root id x
          = eb64_insert uniq root id x)) := by
  constructor
  · intro h
    rw [ebpt_lookup, ebpt_lookup_le, ebpt_lookup_ge, ebpt_insert,
      if_pos h, if_pos h, if_pos h, if_pos h]
    refine ⟨rfl, rfl, rfl, rfl, fun hx => ?_⟩
    rw [Nat.mod_eq_of_lt hx]
    exact ⟨rfl, rfl⟩
  · intro h
    rw [ebpt_lookup, ebpt_lookup_le, ebpt_lookup_ge, ebpt_insert,
      if_neg h, if_neg h, if_neg h, if_neg h]
    refine ⟨rfl, rfl, rfl, rfl, fun hx => ?_⟩
    rw [Nat.mod_eq_of_lt hx]
    exact ⟨rfl, rfl⟩

/-- Witness for C8 at both pointer widths on a singleton tree. -/
theorem C8_witness :
    (ebpt_lookup 4 (some (.leaf 1 7)) 7 = eb32_lookup (some (.leaf 1 7)) 7
      ∧ ebpt_lookup 8 (some (.leaf 1 7)) 7
        = eb64_lookup (some (.leaf 1 7)) 7) :=
  ⟨((C8_ebpt_dispatch 4 false (some (.leaf 1 7)) 2 7).1 rfl).2.2.2.2
      (by decide) |>.1,
    ((C8_ebpt_dispatch 8 false (some (.leaf 1 7)) 2 7).2
      (by decide)).2.2.2.2 (by decide) |>.1⟩

/-- `y &&& 1` is determined by the lowest bit. -/
theorem and_one_eq_of_testBit {y z : Nat}
    (h : y.testBit 0 = z.testBit 0) : y &&& 1 = z &&& 1 := by
  rw [Nat.and_one_is_mod, Nat.and_one_is_mod]
  rw [Nat.testBit_zero, Nat.testBit_zero, decide_eq_decide] at h
  have hy := Nat.mod_two_eq_zero_or_one y
  have hz := Nat.mod_two_eq_zero_or_one z
  by_cases hy1 : y % 2 = 1
  · rw [hy1, (h.1 hy1).symm]
  · have hz1 : ¬z % 2 = 1 := fun hz1 => hy1 (h.2 hz1)
    omega

/-- C9 (code bug): on the tree reachable by inserting `4, 4, 6`, the
descent of `eb128_lookup` for the absent key `5` reaches the duplicate
sentinel (`bit = -1`) with a key differing from `5` and evaluates
`y >> node->node.bit` with a negative shift amount — undefined behaviour
in C, modelled as `.error ()`; `eb128_insert` and the bounded lookups
check `bit < 0` before this shift, `eb128_lookup` does not. -/
theorem C9_eb128_lookup_negative_shift :
    wfRoot (eb128_build false [(1, 4), (2, 4), (3, 6)]) = true ∧
    eb128_lookup (eb128_build false [(1, 4), (2, 4), (3, 6)]) 5
      = .error () :=
  ⟨by decide, rfl⟩

/-- C3 (code bug): the `BITS_PER_LONG < 128` branch-selection path
agrees with the `BITS_PER_LONG >= 128` reference path (bit `b` of the
key) only for `b ≤ 63`: the two-half code is written for 64-bit keys
(32-bit halves, mask `0x1F`), so for `b ≥ 64` it reads bit
`32 + (b % 32)` instead of bit `b` — at `b = 64`, key `2^64`, the halves
path yields branch 0 while bit 64 of the key is 1. -/
theorem C3_eb128_branch_selection_bug :
    (∀ k b : Nat, b < 64 → ebSideHalves k b = ebSideSingle k b) ∧
    ebSideHalves (2 ^ 64) 64 = 0 ∧ ebSideSingle (2 ^ 64) 64 = 1 := by
  refine ⟨?_, by decide, by decide⟩
  intro k b hb
  rw [ebSideHalves, ebSideSingle]
  by_cases h32 : b ≥ 32
  · rw [if_pos h32]
    apply and_one_eq_of_testBit
    have hlt : b % 32 < 32 := Nat.mod_lt _ (by norm_num)
    simp only [Nat.testBit_shiftRight, Nat.add_zero,
      Nat.testBit_mod_two_pow, hlt, decide_True, Bool.true_and]
    rw [show 32 + b % 32 = b by omega]
  · rw [if_neg h32]
    apply and_one_eq_of_testBit
    have hlt : b < 32 := by omega
    simp only [Nat.testBit_shiftRight, Nat.add_zero,
      Nat.testBit_mod_two_pow, hlt, decide_True, Bool.true_and]

/-- Witness for C3 at `b = 33`, `k = 2^33`. -/
theorem C3_witness :
    (33 : Nat) < 64 ∧ ebSideHalves (2 ^ 33) 33 = ebSideSingle (2 ^ 33) 33 :=
  ⟨by norm_num, C3_eb128_branch_selection_bug.1 (2 ^ 33) 33 (by norm_num)⟩

set_option maxRecDepth 16384

/-- C1 (code bug): `eb128i_insert` derives its branching key as
`new->key ^ (1ULL << 127)`; the 64-bit constant `1ULL` shifted by 127 is
undefined behaviour and under any 64-bit reading `c < 2^64` of that
constant bit 127 is not flipped, so signed order is broken: inserting
the two's-complement patterns of `-1`, `0`, `-2` yields the in-order key
sequence `(-1, -2, 0)` although `-2 < -1` in signed order (with the
intended constant `2^127` the sequence would be `(-2, -1, 0)`). -/
theorem C1_eb128i_insert_sign_bug (c : Nat) (hc : c < 2 ^ 64) :
    rootKeys (eb128i_build c false
        [(1, 2 ^ 128 - 1), (2, 0), (3, 2 ^ 128 - 2)])
      = [2 ^ 128 - 1, 2 ^ 128 - 2, 0] ∧
    s128lt (2 ^ 128 - 2) (2 ^ 128 - 1) = true := by
  have hside : ebSideSingle ((2 ^ 128 - 2) ^^^ c) 127 = 1 := by
    rw [ebSideSingle, shiftRight_xor]
    have hc0 : c >>> 127 = 0 := by
      rw [Nat.shiftRight_eq_div_pow]
      apply Nat.div_eq_of_lt
      calc c < 2 ^ 64 := hc
        _ ≤ 2 ^ 127 := by norm_num
    rw [hc0, Nat.xor_zero]
    decide
  have hside' : ¬ebSideSingle ((2 ^ 128 - 2) ^^^ c)
      ((127 : Int)).toNat = 0 := by
    have h127 : ((127 : Int)).toNat = 127 := rfl
    rw [h127, hside]
    decide
  have h3 : eb128i_insertAux c false 3 (2 ^ 128 - 2)
        (.node 2 0 127 (.leaf 1 (2 ^ 128 - 1)) (.leaf 2 0))
      = (.node 2 0 127 (.leaf 1 (2 ^ 128 - 1))
          (.node 3 (2 ^ 128 - 2) 127 (.leaf 3 (2 ^ 128 - 2)) (.leaf 2 0)),
        ⟨3, 2 ^ 128 - 2⟩) := by
    rw [eb128i_insertAux]
    rw [if_neg (by decide), if_neg hside']
    rfl
  have hfinal : eb128i_build c false
      [(1, 2 ^ 128 - 1), (2, 0), (3, 2 ^ 128 - 2)]
      = some (.node 2 0 127 (.leaf 1 (2 ^ 128 - 1))
          (.node 3 (2 ^ 128 - 2) 127 (.leaf 3 (2 ^ 128 - 2))
            (.leaf 2 0))) := by
    show (eb128i_insert c false (eb128i_insert c false
        (eb128i_insert c false none 1 (2 ^ 128 - 1)).1 2 0).1 3
          (2 ^ 128 - 2)).1 = _
    rw [show (eb128i_insert c false none 1 (2 ^ 128 - 1)).1
        = some (.leaf 1 (2 ^ 128 - 1)) from rfl]
    rw [show (eb128i_insert c false (some (.leaf 1 (2 ^ 128 - 1))) 2 0).1
        = some (.node 2 0 127 (.leaf 1 (2 ^ 128 - 1)) (.leaf 2 0))
          from rfl]
    show some (eb128i_insertAux c false 3 (2 ^ 128 - 2)
        (.node 2 0 127 (.leaf 1 (2 ^ 128 - 1)) (.leaf 2 0))).1 = _
    rw [h3]
  rw [hfinal]
  exact ⟨by decide, by decide⟩

/-- Witness for C1 with the constant read as `2^63` (x86 shift counts
are taken modulo 64). -/
theorem C1_witness :
    2 ^ 63 < 2 ^ 64 ∧
    (rootKeys (eb128i_build (2 ^ 63) false
        [(1, 2 ^ 128 - 1), (2, 0), (3, 2 ^ 128 - 2)])
      = [2 ^ 128 - 1, 2 ^ 128 - 2, 0] ∧
    s128lt (2 ^ 128 - 2) (2 ^ 128 - 1) = true) :=
  ⟨by norm_num, C1_eb128i_insert_sign_bug (2 ^ 63) (by norm_num)⟩

end Ebtree
